import Mathlib

/-!
Adaptive Real-Time Scheduler (`ARTS.c`): a verification development.

The C program keeps three singly linked queues of `Process` nodes, a linked
ledger of `Result` nodes and one global clock.  The embedding below follows the
source function by function.

* A linked list is the Lean list of its nodes from head to tail.
* A pointer into a list is the position of the node it points to; the `NULL`
  that ends a list of `n` nodes is position `n`, so that `ptr->next` is
  position `ptr + 1`.
* C `int` is 32 bits wide.  Values are integers; the additions to
  `global_clock` and the subtractions of `print_results` are reduced to the
  range of `int` by `wrap32`, the two's complement result that the usual
  compilers produce where the C standard leaves signed overflow undefined.
  Statements about computed times say when the exact value is in range.
  The subtraction from `remaining_burst` is exact: for a quantum `≥ 0` its
  result lies between 0 and the old value (`remaining_in_range`).
* Loops are recursions on a step counter started at a value that the lemmas
  below show to be large enough.
-/

namespace ARTS

/-! ## Data model -/

/-- Time quantum of the first queue (`TIME_Q1`). -/
def TIME_Q1 : Int := 3
/-- Time quantum of the second queue (`TIME_Q2`). -/
def TIME_Q2 : Int := 2
/-- Time quantum of the third queue (`TIME_Q3`). -/
def TIME_Q3 : Int := 1

/-- The values of a 32-bit `int`: from `INT_MIN` to `INT_MAX`. -/
def InRange (x : Int) : Prop := -2147483648 ≤ x ∧ x ≤ 2147483647

instance (x : Int) : Decidable (InRange x) := by
  unfold InRange
  infer_instance

/-- The 32-bit two's complement value of an integer: the `int` left by an
addition or subtraction whose exact result is `x`. -/
def wrap32 (x : Int) : Int := (x + 2147483648) % 4294967296 - 2147483648

/-- Process queue node (`struct Process`, without the link). -/
structure Process where
  pid : Int
  priority : Int
  arrival_time : Int
  burst : Int
  remaining_burst : Int
deriving DecidableEq, Repr

/-- Result queue node (`struct Result`, without the link). -/
structure Result where
  pid : Int
  arrival : Int
  burst : Int
  completion : Int
deriving DecidableEq, Repr

/-! ## Queue operations -/

/-- `enqueue_process`: walk to the last node and link the new node after it. -/
def enqueue_process : List Process → Process → List Process
  | [], new_process => [new_process]
  | p :: rest, new_process => p :: enqueue_process rest new_process

/-- `dequeue_process`: unlink the node `process` (given by its position).  The
head is replaced by its successor; otherwise the walk stops at the node whose
successor is `process`; a node that is not found leaves the queue as it is. -/
def dequeue_process : List Process → Nat → List Process
  | [], _ => []
  | _ :: rest, 0 => rest
  | p :: rest, process + 1 => p :: dequeue_process rest process

/-- `record_result`: build a new `Result` and link it after the last one. -/
def record_result : List Result → Int → Int → Int → Int → List Result
  | [], pid, arrival, burst, completion => [⟨pid, arrival, burst, completion⟩]
  | r :: rest, pid, arrival, burst, completion =>
      r :: record_result rest pid arrival burst completion

/-! ## The scheduling pass -/

/-- What `schedule` reads and writes: the queue `*queue`, the variable
`global_clock` and the ledger `*results`. -/
structure Sched where
  queue : List Process
  global_clock : Int
  results : List Result
deriving DecidableEq, Repr

/-- The `while (current)` loop of `schedule`.  `current` is the position of the
current node; the loop ends when it is past the last node.  The clock is
advanced by the 32-bit addition `global_clock += execution_time`; the
subtraction `remaining_burst -= execution_time` takes away either the whole
`remaining_burst` or the quantum and is written without reduction. -/
def scheduleLoop (time_quantum : Int) : Nat → Nat → Sched → Sched
  | 0, _, st => st
  | fuel + 1, current, st =>
    match st.queue[current]? with
    | none => st
    | some cur =>
      let clock1 :=
        if cur.arrival_time > st.global_clock then cur.arrival_time else st.global_clock
      let execution_time :=
        if cur.remaining_burst < time_quantum then cur.remaining_burst else time_quantum
      let clock2 := wrap32 (clock1 + execution_time)
      let remaining := cur.remaining_burst - execution_time
      let queue1 := st.queue.set current { cur with remaining_burst := remaining }
      if remaining ≤ 0 then
        scheduleLoop time_quantum fuel current
          { queue := dequeue_process queue1 current
            global_clock := clock2
            results := record_result st.results cur.pid cur.arrival_time cur.burst clock2 }
      else
        scheduleLoop time_quantum fuel (current + 1)
          { queue := queue1, global_clock := clock2, results := st.results }

/-- `schedule`: one pass over `*queue` with `time_quantum`.  Each iteration
takes one node of the queue as it was on entry, so `queue.length` steps reach
the end. -/
def schedule (queue : List Process) (time_quantum : Int) (global_clock : Int)
    (results : List Result) : Sched :=
  match queue with
  | [] => ⟨[], global_clock, results⟩
  | _ => scheduleLoop time_quantum queue.length 0 ⟨queue, global_clock, results⟩

/-! ### The pass as a fold over the queue -/

/-- The clock once the process is allowed to start. -/
def startClock (p : Process) (clock : Int) : Int :=
  if p.arrival_time > clock then p.arrival_time else clock

/-- The slice granted to a process in one iteration. -/
def slice (time_quantum : Int) (p : Process) : Int :=
  if p.remaining_burst < time_quantum then p.remaining_burst else time_quantum

/-- One pass written by recursion on the nodes still to be visited: the nodes
kept, the final clock and the results recorded, in order. -/
def sweep (time_quantum : Int) : List Process → Int → List Process × Int × List Result
  | [], clock => ([], clock, [])
  | p :: rest, clock =>
    let clock2 := wrap32 (startClock p clock + slice time_quantum p)
    let r := sweep time_quantum rest clock2
    if p.remaining_burst - slice time_quantum p ≤ 0 then
      (r.1, r.2.1, ⟨p.pid, p.arrival_time, p.burst, clock2⟩ :: r.2.2)
    else
      ({ p with remaining_burst := p.remaining_burst - slice time_quantum p } :: r.1,
        r.2.1, r.2.2)

/-! ## Sorting a queue by arrival time -/

/-- The inner `while (ptr->next != lptr)` loop of `sort_by_arrival`.  `ptr` and
`lptr` are positions, the initial `lptr = NULL` being `queue.length`.  The two
nodes keep their places and exchange their five data fields.  The result is
the queue, the flag `swapped` and the final `ptr`; it is `none` when the loop
would read `ptr->next->arrival_time` past the last node, or when the step
counter runs out. -/
def sortInner (lptr : Nat) : Nat → Nat → List Process → Bool → Option (List Process × Bool × Nat)
  | 0, _, _, _ => none
  | fuel + 1, ptr, queue, swapped =>
    if ptr + 1 ≠ lptr then
      match queue[ptr]?, queue[ptr + 1]? with
      | some a, some b =>
        if a.arrival_time > b.arrival_time then
          sortInner lptr fuel (ptr + 1) ((queue.set ptr b).set (ptr + 1) a) true
        else
          sortInner lptr fuel (ptr + 1) queue swapped
      | _, _ => none
    else
      some (queue, swapped, ptr)

/-- The `do ... while (swapped)` loop of `sort_by_arrival`: one inner loop from
the head with `swapped = 0`, then `lptr = ptr`. -/
def sortOuter : Nat → Nat → List Process → Option (List Process)
  | 0, _, _ => none
  | fuel + 1, lptr, queue =>
    match sortInner lptr queue.length 0 queue false with
    | none => none
    | some (queue1, swapped, ptr) =>
      if swapped then sortOuter fuel ptr queue1 else some queue1

/-- `sort_by_arrival`: an empty or one-node queue is returned at once;
otherwise the bubble loops run with `lptr = NULL`. -/
def sort_by_arrival (queue : List Process) : Option (List Process) :=
  match queue with
  | [] => some []
  | [p] => some [p]
  | _ => sortOuter queue.length queue.length queue

/-! ### The sort as list functions -/

/-- One bubble pass making `k` comparisons of neighbours from the head on:
the list after the pass and whether a pair was exchanged. -/
def bubblePass : Nat → List Process → List Process × Bool
  | 0, queue => (queue, false)
  | _ + 1, [] => ([], false)
  | _ + 1, [p] => ([p], false)
  | k + 1, p :: p2 :: rest =>
    if p.arrival_time > p2.arrival_time then
      (p2 :: (bubblePass k (p :: rest)).1, true)
    else
      (p :: (bubblePass k (p2 :: rest)).1, (bubblePass k (p2 :: rest)).2)

/-- Passes over the first `l`, `l - 1`, ... nodes until one exchanges
nothing. -/
def bubbleSort : Nat → Nat → List Process → List Process
  | 0, _, queue => queue
  | fuel + 1, l, queue =>
    if (bubblePass (l - 1) queue).2 then bubbleSort fuel (l - 1) (bubblePass (l - 1) queue).1
    else (bubblePass (l - 1) queue).1

/-- Arrival times do not decrease from head to tail. -/
def ArrivalSorted (queue : List Process) : Prop :=
  queue.Pairwise (fun a b => a.arrival_time ≤ b.arrival_time)

instance (queue : List Process) : Decidable (ArrivalSorted queue) := by
  unfold ArrivalSorted
  infer_instance

/-! ## The menu operations of `main` -/

/-- The variables of `main` that outlive one menu choice, and `global_clock`. -/
structure State where
  q1 : List Process
  q2 : List Process
  q3 : List Process
  results : List Result
  global_clock : Int
deriving DecidableEq, Repr

/-- The state at program start. -/
def init : State := ⟨[], [], [], [], 0⟩

/-- Menu choice 1, one iteration of its loop: the four numbers read fill a new
node, `remaining_burst` is set to `burst`, and the priority picks the queue. -/
def add_process (s : State) (pid priority arrival_time burst : Int) : State :=
  let p : Process := ⟨pid, priority, arrival_time, burst, burst⟩
  if p.priority ≥ 100 then
    { s with q1 := enqueue_process s.q1 p }
  else if p.priority ≥ 50 then
    { s with q2 := enqueue_process s.q2 p }
  else
    { s with q3 := enqueue_process s.q3 p }

/-- Menu choice 2: clock to 0, the three sorts, then the three passes. -/
def run_scheduler (s : State) : Option State :=
  match sort_by_arrival s.q1, sort_by_arrival s.q2, sort_by_arrival s.q3 with
  | some q1, some q2, some q3 =>
    let r1 := schedule q1 TIME_Q1 0 s.results
    let r2 := schedule q2 TIME_Q2 r1.global_clock r1.results
    let r3 := schedule q3 TIME_Q3 r2.global_clock r2.results
    some { q1 := r1.queue, q2 := r2.queue, q3 := r3.queue,
           results := r3.results, global_clock := r3.global_clock }
  | _, _, _ => none

/-- Menu choice 4: the queues and the ledger are freed and set to `NULL`;
`global_clock` is not assigned. -/
def reset (s : State) : State :=
  { s with q1 := [], q2 := [], q3 := [], results := [] }

/-! ## Reporting -/

/-- One printed line of the table: the fields of the result and `wait`. -/
structure Row where
  pid : Int
  arrival : Int
  burst : Int
  completion : Int
  wait : Int
deriving DecidableEq, Repr

/-- What `print_results` has computed when it prints the averages.  The totals
are `float` accumulators in C; here they are the exact sums of the `int` values
added, which the accumulators hold as long as the partial sums stay below
`2^24` in absolute value.  No statement below depends on the totals. -/
structure Report where
  rows : List Row
  total_wait : Int
  total_tat : Int
  count : Int
deriving DecidableEq, Repr

/-- The `while (results)` loop of `print_results`. -/
def printLoop : List Result → Report → Report
  | [], acc => acc
  | r :: rest, acc =>
    let tat := wrap32 (r.completion - r.arrival)
    let wait := wrap32 (tat - r.burst)
    printLoop rest
      { rows := acc.rows ++ [⟨r.pid, r.arrival, r.burst, r.completion, wait⟩]
        total_wait := acc.total_wait + wait
        total_tat := acc.total_tat + tat
        count := acc.count + 1 }

/-- `print_results`: `none` is the line "No results available"; otherwise the
table and the totals that are divided by `count`. -/
def print_results (results : List Result) : Option Report :=
  match results with
  | [] => none
  | _ => some (printLoop results ⟨[], 0, 0, 0⟩)

/-- The quotient `total_wait / count` printed as average waiting time. -/
def average_wait (rep : Report) : ℚ := (rep.total_wait : ℚ) / (rep.count : ℚ)

/-- The quotient `total_tat / count` printed as average turnaround time. -/
def average_tat (rep : Report) : ℚ := (rep.total_tat : ℚ) / (rep.count : ℚ)

/-! ## Runs of the menu loop -/

/-- The menu choices that change the state: adding one process, running the
scheduler, resetting. -/
inductive Cmd where
  | add (pid priority arrival_time burst : Int)
  | run
  | reset
deriving DecidableEq, Repr

/-- The effect of one choice. -/
def step (s : State) : Cmd → Option State
  | Cmd.add pid priority arrival_time burst => some (add_process s pid priority arrival_time burst)
  | Cmd.run => run_scheduler s
  | Cmd.reset => some (reset s)

/-- The effect of a sequence of choices, first to last. -/
def runCmds : State → List Cmd → Option State
  | s, [] => some s
  | s, c :: rest =>
    match step s c with
    | some s1 => runCmds s1 rest
    | none => none

/-! ## Notions used by the claims on computed times -/

/-- The exact sums that the additions `global_clock += execution_time` of one
pass are asked to store, in the order of the pass. -/
def clockSums (time_quantum : Int) : List Process → Int → List Int
  | [], _ => []
  | p :: rest, clock =>
    (startClock p clock + slice time_quantum p)
      :: clockSums time_quantum rest (wrap32 (startClock p clock + slice time_quantum p))

/-- No addition to the clock overflows in the pass. -/
def NoOverflow (time_quantum : Int) (queue : List Process) (clock : Int) : Prop :=
  ∀ c ∈ clockSums time_quantum queue clock, InRange c

instance (time_quantum : Int) (queue : List Process) (clock : Int) :
    Decidable (NoOverflow time_quantum queue clock) := by
  unfold NoOverflow
  infer_instance

/-- No addition to the clock overflows in the three passes of a scheduler run
over the sorted queues `o1`, `o2`, `o3`. -/
def RunInRange (o1 o2 o3 : List Process) : Prop :=
  NoOverflow TIME_Q1 o1 0
    ∧ NoOverflow TIME_Q2 o2 (schedule o1 TIME_Q1 0 []).global_clock
    ∧ NoOverflow TIME_Q3 o3
        (schedule o2 TIME_Q2 (schedule o1 TIME_Q1 0 []).global_clock []).global_clock

instance (o1 o2 o3 : List Process) : Decidable (RunInRange o1 o2 o3) := by
  unfold RunInRange
  infer_instance

/-- The line that `print_results` prints for a result, with the waiting time as
the two `int` subtractions leave it. -/
def rowOf (r : Result) : Row :=
  ⟨r.pid, r.arrival, r.burst, r.completion,
    wrap32 (wrap32 (r.completion - r.arrival) - r.burst)⟩

/-- The waiting time of a result as the specification defines it:
turnaround minus burst, turnaround being completion minus arrival. -/
def specWaiting (r : Result) : Int := (r.completion - r.arrival) - r.burst

/-- The ledger entries the specification expects when every process completes
in its pass, in queue order: `c_i = max(c_(i-1), arrival_i) + burst_i`, the
first argument being `c_(i-1)`. -/
def specCompletions : Int → List Process → List Result
  | _, [] => []
  | c, p :: rest =>
    ⟨p.pid, p.arrival_time, p.burst, max c p.arrival_time + p.burst⟩
      :: specCompletions (max c p.arrival_time + p.burst) rest

/-- The clock the specification expects after the ledger entries of
`specCompletions`: the last `c_i`, or the starting value for no process. -/
def specClock : Int → List Process → Int
  | c, [] => c
  | c, p :: rest => specClock (max c p.arrival_time + p.burst) rest

/-- The processes that a pass with `time_quantum` completes and removes, in
queue order. -/
def completedBy (time_quantum : Int) (queue : List Process) : List Process :=
  queue.filter (fun p => decide (p.remaining_burst ≤ time_quantum))

/-! ## Further notions used by the claims on invariants and termination -/

/-- The data-model invariant of a queued process:
`0 ≤ remaining_burst ≤ burst`. -/
def BurstInv (p : Process) : Prop := 0 ≤ p.remaining_burst ∧ p.remaining_burst ≤ p.burst

instance (p : Process) : Decidable (BurstInv p) := by
  unfold BurstInv
  infer_instance

/-- A choice that adds a process adds one with a burst that is not negative. -/
def nonNegCmd : Cmd → Bool
  | Cmd.add _ _ _ burst => decide (0 ≤ burst)
  | _ => true

/-- No process added by the choices has a negative burst. -/
def NonNegBursts (cmds : List Cmd) : Prop := ∀ c ∈ cmds, nonNegCmd c = true

instance (cmds : List Cmd) : Decidable (NonNegBursts cmds) := by
  unfold NonNegBursts
  infer_instance

/-- Completion times do not decrease along a ledger. -/
def CompletionSorted (results : List Result) : Prop :=
  results.Pairwise (fun a b => a.completion ≤ b.completion)

instance (results : List Result) : Decidable (CompletionSorted results) := by
  unfold CompletionSorted
  infer_instance

/-- The tier bands: the first queue holds priorities `≥ 100`, the second
`50 .. 99`, the third `< 50`. -/
def TierInv (s : State) : Prop :=
  (∀ p ∈ s.q1, p.priority ≥ 100) ∧
  (∀ p ∈ s.q2, 50 ≤ p.priority ∧ p.priority ≤ 99) ∧
  (∀ p ∈ s.q3, p.priority < 50)

/-- What a result keeps of its process: pid, arrival time and burst. -/
def processKey (p : Process) : Int × Int × Int := (p.pid, p.arrival_time, p.burst)

/-- The pid, arrival time and burst of a result. -/
def resultKey (r : Result) : Int × Int × Int := (r.pid, r.arrival, r.burst)

/-- The result `r` is the one recorded for the process `p`, and its waiting time
is not negative if `p` had not run before the pass (`remaining_burst = burst`
when the pass began). -/
def FirstPassWait (r : Result) (p : Process) : Prop :=
  resultKey r = processKey p ∧ (p.remaining_burst = p.burst → 0 ≤ specWaiting r)

/-- `k` calls of `schedule` on the same queue, one after the other, each
starting from the queue, clock and ledger the previous one left. -/
def schedulePasses (time_quantum : Int) : Nat → Sched → Sched
  | 0, st => st
  | k + 1, st =>
    schedulePasses time_quantum k (schedule st.queue time_quantum st.global_clock st.results)

/-- The number of the pass that completes a process with `remaining` units left
under quantum `time_quantum`: the quotient rounded up. -/
def passNumber (remaining time_quantum : Int) : Int :=
  (remaining + time_quantum - 1) / time_quantum

/-- The inner loop of `sort_by_arrival` as `sortInner`, with a record of the
positions `ptr` at which `ptr->arrival_time` and `ptr->next->arrival_time` were
compared. -/
def sortInnerLog (lptr : Nat) :
    Nat → Nat → List Process → Bool → List Nat → Option (List Process × Bool × Nat × List Nat)
  | 0, _, _, _, _ => none
  | fuel + 1, ptr, queue, swapped, log =>
    if ptr + 1 ≠ lptr then
      match queue[ptr]?, queue[ptr + 1]? with
      | some a, some b =>
        if a.arrival_time > b.arrival_time then
          sortInnerLog lptr fuel (ptr + 1) ((queue.set ptr b).set (ptr + 1) a) true (log ++ [ptr])
        else
          sortInnerLog lptr fuel (ptr + 1) queue swapped (log ++ [ptr])
      | _, _ => none
    else
      some (queue, swapped, ptr, log)

/-- The outer loop of `sort_by_arrival` as `sortOuter`, with the record of each
pass, first pass first. -/
def sortOuterLog : Nat → Nat → List Process → List (List Nat) → Option (List Process × List (List Nat))
  | 0, _, _, _ => none
  | fuel + 1, lptr, queue, passes =>
    match sortInnerLog lptr queue.length 0 queue false [] with
    | none => none
    | some (queue1, swapped, ptr, log) =>
      if swapped then sortOuterLog fuel ptr queue1 (passes ++ [log])
      else some (queue1, passes ++ [log])

/-- The function `sort_by_arrival` with the record of its passes: no pass for an
empty or one-node queue. -/
def sortLog (queue : List Process) : Option (List Process × List (List Nat)) :=
  match queue with
  | [] => some ([], [])
  | [p] => some ([p], [])
  | _ => sortOuterLog queue.length queue.length queue []

/-- The three passes of menu choice 2 on queues that are already sorted: the
first with `TIME_Q1` from clock 0, the next two with `TIME_Q2` and `TIME_Q3`
from the clock and ledger left by the pass before. -/
def threePasses (o1 o2 o3 : List Process) (results : List Result) : State :=
  let r1 := schedule o1 TIME_Q1 0 results
  let r2 := schedule o2 TIME_Q2 r1.global_clock r1.results
  let r3 := schedule o3 TIME_Q3 r2.global_clock r2.results
  { q1 := r1.queue, q2 := r2.queue, q3 := r3.queue,
    results := r3.results, global_clock := r3.global_clock }

/-! ## Lemmas on the queue operations and the pass -/

theorem enqueue_process_eq (queue : List Process) (p : Process) :
    enqueue_process queue p = queue ++ [p] := by
  induction queue with
  | nil => rfl
  | cons x rest ih => simp [enqueue_process, ih]

theorem record_result_eq (results : List Result) (pid arrival burst completion : Int) :
    record_result results pid arrival burst completion
      = results ++ [⟨pid, arrival, burst, completion⟩] := by
  induction results with
  | nil => rfl
  | cons x rest ih => simp [record_result, ih]

theorem dequeue_process_append (done : List Process) (p : Process) (todo : List Process) :
    dequeue_process (done ++ p :: todo) done.length = done ++ todo := by
  induction done with
  | nil => rfl
  | cons x rest ih => simp [dequeue_process, ih]

theorem scheduleLoop_eq_sweep (time_quantum : Int) (fuel : Nat) :
    ∀ (done todo : List Process) (clock : Int) (results : List Result),
      todo.length ≤ fuel →
      scheduleLoop time_quantum fuel done.length ⟨done ++ todo, clock, results⟩
        = ⟨done ++ (sweep time_quantum todo clock).1, (sweep time_quantum todo clock).2.1,
            results ++ (sweep time_quantum todo clock).2.2⟩ := by
  induction fuel with
  | zero =>
    intro done todo clock results h
    have : todo = [] := List.length_eq_zero.mp (Nat.le_zero.mp h)
    subst this
    simp [scheduleLoop, sweep]
  | succ fuel ih =>
    intro done todo clock results h
    cases todo with
    | nil => simp [scheduleLoop, sweep]
    | cons p rest =>
      have hlen : rest.length ≤ fuel := by simpa using h
      have hget : (done ++ p :: rest)[done.length]? = some p := by
        rw [List.getElem?_append_right (le_refl _)]
        simp
      simp only [scheduleLoop, hget, sweep, startClock, slice]
      by_cases hdone : p.remaining_burst
          - (if p.remaining_burst < time_quantum then p.remaining_burst else time_quantum) ≤ 0
      · simp only [hdone, if_true]
        have hq : dequeue_process ((done ++ p :: rest).set done.length
            { p with remaining_burst := p.remaining_burst
              - (if p.remaining_burst < time_quantum then p.remaining_burst else time_quantum) })
            done.length = done ++ rest := by
          rw [List.set_append_right _ _ (le_refl _)]
          simp [dequeue_process_append]
        rw [hq, record_result_eq, ih done rest _ _ hlen]
        simp
      · simp only [hdone, if_false]
        have hq : (done ++ p :: rest).set done.length
            { p with remaining_burst := p.remaining_burst
              - (if p.remaining_burst < time_quantum then p.remaining_burst else time_quantum) }
            = (done ++ [{ p with remaining_burst := p.remaining_burst
              - (if p.remaining_burst < time_quantum then p.remaining_burst
                  else time_quantum) }]) ++ rest := by
          rw [List.set_append_right _ _ (le_refl _)]
          simp
        have hl : done.length + 1 = (done ++ [{ p with remaining_burst := p.remaining_burst
              - (if p.remaining_burst < time_quantum then p.remaining_burst
                  else time_quantum) }]).length := by simp
        rw [hq, hl, ih _ rest _ _ hlen]
        simp

theorem schedule_eq_sweep (queue : List Process) (time_quantum clock : Int)
    (results : List Result) :
    schedule queue time_quantum clock results
      = ⟨(sweep time_quantum queue clock).1, (sweep time_quantum queue clock).2.1,
          results ++ (sweep time_quantum queue clock).2.2⟩ := by
  cases queue with
  | nil => simp [schedule, sweep]
  | cons p rest =>
    have h := scheduleLoop_eq_sweep time_quantum (p :: rest).length [] (p :: rest) clock results
      (le_refl _)
    simpa [schedule] using h

theorem wrap32_of_inRange (x : Int) (h : InRange x) : wrap32 x = x := by
  unfold InRange at h
  unfold wrap32
  omega

theorem wrap32_inRange (x : Int) : InRange (wrap32 x) := by
  unfold InRange wrap32
  omega

theorem remaining_in_range (time_quantum : Int) (p : Process) (hq : 0 ≤ time_quantum)
    (h : InRange p.remaining_burst) : InRange (p.remaining_burst - slice time_quantum p) := by
  unfold InRange at h ⊢
  unfold slice
  split <;> omega

/-! ## Lemmas on the sort -/

theorem bubblePass_perm (k : Nat) : ∀ queue : List Process, ((bubblePass k queue).1).Perm queue := by
  induction k with
  | zero => intro queue; simp [bubblePass]
  | succ k ih =>
    intro queue
    match queue with
    | [] => simp [bubblePass]
    | [p] => simp [bubblePass]
    | p :: p2 :: rest =>
      simp only [bubblePass]
      split
      · exact ((ih (p :: rest)).cons p2).trans (List.Perm.swap p p2 rest)
      · exact (ih (p2 :: rest)).cons p

theorem bubblePass_length (k : Nat) (queue : List Process) :
    ((bubblePass k queue).1).length = queue.length :=
  (bubblePass_perm k queue).length_eq

theorem bubblePass_filter (a : Int) (k : Nat) : ∀ queue : List Process,
    ((bubblePass k queue).1).filter (fun p => decide (p.arrival_time = a))
      = queue.filter (fun p => decide (p.arrival_time = a)) := by
  induction k with
  | zero => intro queue; simp [bubblePass]
  | succ k ih =>
    intro queue
    match queue with
    | [] => simp [bubblePass]
    | [p] => simp [bubblePass]
    | p :: p2 :: rest =>
      simp only [bubblePass]
      split
      · rename_i hgt
        have h1 := ih (p :: rest)
        by_cases hp : p.arrival_time = a
        · have hp2 : ¬ p2.arrival_time = a := by omega
          simp [List.filter_cons, hp, hp2] at h1 ⊢
          exact h1
        · simp [List.filter_cons, hp] at h1 ⊢
          rw [h1]
      · have h1 := ih (p2 :: rest)
        simp only [List.filter_cons] at h1 ⊢
        rw [h1]

theorem bubblePass_of_sorted (k : Nat) : ∀ queue : List Process, ArrivalSorted queue →
    bubblePass k queue = (queue, false) := by
  induction k with
  | zero => intro queue _; simp [bubblePass]
  | succ k ih =>
    intro queue hs
    match queue, hs with
    | [], _ => simp [bubblePass]
    | [p], _ => simp [bubblePass]
    | p :: p2 :: rest, hs =>
      have hle : p.arrival_time ≤ p2.arrival_time := by
        have := (List.pairwise_cons.mp hs).1 p2 (by simp)
        exact this
      have hs2 : ArrivalSorted (p2 :: rest) := (List.pairwise_cons.mp hs).2
      have hnot : ¬ p.arrival_time > p2.arrival_time := by omega
      simp [bubblePass, hnot, ih (p2 :: rest) hs2]

theorem bubblePass_no_swap (k : Nat) : ∀ queue : List Process,
    (bubblePass k queue).2 = false →
      (bubblePass k queue).1 = queue ∧ (queue.length ≤ k + 1 → ArrivalSorted queue) := by
  induction k with
  | zero =>
    intro queue _
    refine ⟨by simp [bubblePass], fun h => ?_⟩
    match queue, h with
    | [], _ => simp [ArrivalSorted]
    | [p], _ => simp [ArrivalSorted]
  | succ k ih =>
    intro queue h
    match queue, h with
    | [], _ => simp [bubblePass, ArrivalSorted]
    | [p], _ => simp [bubblePass, ArrivalSorted]
    | p :: p2 :: rest, h =>
      by_cases hgt : p.arrival_time > p2.arrival_time
      · simp [bubblePass, hgt] at h
      · simp only [bubblePass, hgt, if_false] at h ⊢
        obtain ⟨h1, h2⟩ := ih (p2 :: rest) h
        refine ⟨by rw [h1], fun hl => ?_⟩
        have hs2 : ArrivalSorted (p2 :: rest) := h2 (by simpa using hl)
        have hp2 := (List.pairwise_cons.mp hs2).1
        refine List.pairwise_cons.mpr ⟨?_, hs2⟩
        intro y hy
        rcases List.mem_cons.mp hy with rfl | hy
        · omega
        · have := hp2 y hy
          omega

theorem bubblePass_append (k : Nat) : ∀ xs ys : List Process, k + 1 ≤ xs.length →
    bubblePass k (xs ++ ys) = ((bubblePass k xs).1 ++ ys, (bubblePass k xs).2) := by
  induction k with
  | zero => intro xs ys _; simp [bubblePass]
  | succ k ih =>
    intro xs ys h
    match xs, h with
    | p :: p2 :: rest, h =>
      have hl : k + 1 ≤ (p :: rest).length := by simpa using h
      have hl2 : k + 1 ≤ (p2 :: rest).length := by simpa using h
      have e1 := ih (p :: rest) ys hl
      have e2 := ih (p2 :: rest) ys hl2
      simp only [List.cons_append] at e1 e2 ⊢
      simp only [bubblePass]
      split
      · simp [e1]
      · simp [e2]

theorem bubblePass_max (k : Nat) : ∀ xs : List Process, xs.length = k + 1 →
    ∃ front m, (bubblePass k xs).1 = front ++ [m] ∧ front.length = k ∧
      ∀ x ∈ xs, x.arrival_time ≤ m.arrival_time := by
  induction k with
  | zero =>
    intro xs h
    match xs, h with
    | [p], _ => exact ⟨[], p, by simp [bubblePass], rfl, by simp⟩
  | succ k ih =>
    intro xs h
    match xs, h with
    | p :: p2 :: rest, h =>
      by_cases hgt : p.arrival_time > p2.arrival_time
      · obtain ⟨front, m, e, hl, hm⟩ := ih (p :: rest) (by simpa using h)
        refine ⟨p2 :: front, m, by simp [bubblePass, hgt, e], by simp [hl], ?_⟩
        intro x hx
        have hpm := hm p (by simp)
        rcases List.mem_cons.mp hx with rfl | hx
        · exact hpm
        · rcases List.mem_cons.mp hx with rfl | hx
          · omega
          · exact hm x (by simp [hx])
      · obtain ⟨front, m, e, hl, hm⟩ := ih (p2 :: rest) (by simpa using h)
        refine ⟨p :: front, m, by simp [bubblePass, hgt, e], by simp [hl], ?_⟩
        intro x hx
        have hpm := hm p2 (by simp)
        rcases List.mem_cons.mp hx with rfl | hx
        · omega
        · exact hm x hx

theorem bubbleSort_perm (fuel : Nat) : ∀ (l : Nat) (queue : List Process),
    (bubbleSort fuel l queue).Perm queue := by
  induction fuel with
  | zero => intro l queue; simp [bubbleSort]
  | succ fuel ih =>
    intro l queue
    simp only [bubbleSort]
    split
    · exact (ih _ _).trans (bubblePass_perm _ _)
    · exact bubblePass_perm _ _

theorem bubbleSort_filter (a : Int) (fuel : Nat) : ∀ (l : Nat) (queue : List Process),
    (bubbleSort fuel l queue).filter (fun p => decide (p.arrival_time = a))
      = queue.filter (fun p => decide (p.arrival_time = a)) := by
  induction fuel with
  | zero => intro l queue; simp [bubbleSort]
  | succ fuel ih =>
    intro l queue
    simp only [bubbleSort]
    split
    · rw [ih, bubblePass_filter]
    · rw [bubblePass_filter]

theorem bubbleSort_of_sorted (fuel l : Nat) (queue : List Process) (h : ArrivalSorted queue) :
    bubbleSort fuel l queue = queue := by
  cases fuel with
  | zero => simp [bubbleSort]
  | succ fuel => simp [bubbleSort, bubblePass_of_sorted _ _ h]

theorem bubbleSort_sorted (fuel : Nat) : ∀ front back : List Process,
    front.length ≤ fuel → ArrivalSorted back →
    (∀ x ∈ front, ∀ y ∈ back, x.arrival_time ≤ y.arrival_time) →
    ArrivalSorted (bubbleSort fuel front.length (front ++ back)) := by
  induction fuel with
  | zero =>
    intro front back hl hs _
    have : front = [] := List.length_eq_zero.mp (Nat.le_zero.mp hl)
    subst this
    simpa [bubbleSort] using hs
  | succ fuel ih =>
    intro front back hl hs hle
    cases hk : front.length with
    | zero =>
      have : front = [] := List.length_eq_zero.mp hk
      subst this
      simpa [bubbleSort, bubblePass] using hs
    | succ k =>
      have happ := bubblePass_append k front back (by omega)
      simp only [bubbleSort, Nat.add_sub_cancel, happ]
      have hperm := bubblePass_perm k front
      split
      · obtain ⟨init, m, e, hil, hm⟩ := bubblePass_max k front hk
        rw [e] at hperm ⊢
        have hmem : ∀ x, x ∈ init ++ [m] → x ∈ front := fun x hx => hperm.subset hx
        have hstep := ih init (m :: back) (by omega)
          (List.pairwise_cons.mpr ⟨fun y hy => hle m (hmem m (by simp)) y hy, hs⟩)
          (by
            intro x hx y hy
            rcases List.mem_cons.mp hy with rfl | hy
            · exact hm x (hmem x (by simp [hx]))
            · exact hle x (hmem x (by simp [hx])) y hy)
        rw [hil] at hstep
        simpa using hstep
      · rename_i hsw
        have hsw2 : (bubblePass k front).2 = false := by simpa using hsw
        obtain ⟨e, hsorted⟩ := bubblePass_no_swap k front hsw2
        rw [e]
        exact List.pairwise_append.mpr ⟨hsorted (by omega), hs, hle⟩

theorem sortInner_eq (lptr : Nat) (fuel : Nat) : ∀ (front rest : List Process) (swapped : Bool),
    front.length + 1 ≤ lptr → lptr ≤ front.length + rest.length → lptr - front.length ≤ fuel →
    sortInner lptr fuel front.length (front ++ rest) swapped
      = some (front ++ (bubblePass (lptr - 1 - front.length) rest).1,
          swapped || (bubblePass (lptr - 1 - front.length) rest).2, lptr - 1) := by
  induction fuel with
  | zero => intro front rest swapped h1 h2 h3; omega
  | succ fuel ih =>
    intro front rest swapped h1 h2 h3
    by_cases hend : front.length + 1 = lptr
    · have hk : lptr - 1 - front.length = 0 := by omega
      have hp : lptr - 1 = front.length := by omega
      simp [sortInner, hend, hk, hp, bubblePass]
    · match rest, h2 with
      | [], h2 => simp at h2; omega
      | [a], h2 => simp at h2; omega
      | a :: b :: rest, h2 =>
        have hk : lptr - 1 - front.length = (lptr - 1 - (front.length + 1)) + 1 := by omega
        have hga : (front ++ a :: b :: rest)[front.length]? = some a := by
          rw [List.getElem?_append_right (le_refl _)]
          simp
        have hgb : (front ++ a :: b :: rest)[front.length + 1]? = some b := by
          rw [List.getElem?_append_right (by omega)]
          simp
        simp only [sortInner, hend, hga, hgb, ne_eq, not_false_eq_true, if_true]
        rw [hk]
        simp only [bubblePass]
        by_cases hgt : a.arrival_time > b.arrival_time
        · simp only [hgt, if_true]
          have hset : ((front ++ a :: b :: rest).set front.length b).set (front.length + 1) a
              = (front ++ [b]) ++ a :: rest := by
            rw [List.set_append_right _ _ (le_refl _)]
            rw [List.set_append_right _ _ (by omega)]
            simp
          have hl : front.length + 1 = (front ++ [b]).length := by simp
          rw [hset, hl, ih (front ++ [b]) (a :: rest) true (by simp; omega) (by simp at h2 ⊢; omega)
            (by simp; omega)]
          simp
        · simp only [hgt, if_false]
          have hset : front ++ a :: b :: rest = (front ++ [a]) ++ b :: rest := by simp
          have hl : front.length + 1 = (front ++ [a]).length := by simp
          rw [hset, hl, ih (front ++ [a]) (b :: rest) swapped (by simp; omega)
            (by simp at h2 ⊢; omega) (by simp; omega)]
          simp

theorem sortOuter_eq (fuel : Nat) : ∀ (lptr : Nat) (queue : List Process),
    1 ≤ lptr → lptr ≤ queue.length → lptr ≤ fuel →
    sortOuter fuel lptr queue = some (bubbleSort fuel lptr queue) := by
  induction fuel with
  | zero => intro lptr queue h1 h2 h3; omega
  | succ fuel ih =>
    intro lptr queue h1 h2 h3
    have hin := sortInner_eq lptr queue.length [] queue false (by simpa using h1)
      (by simpa using h2) (by simp; omega)
    simp only [List.length_nil, List.nil_append, Nat.sub_zero, Bool.false_or] at hin
    simp only [sortOuter, hin, bubbleSort]
    split
    · rename_i hsw
      have hl1 : 1 ≤ lptr - 1 := by
        by_contra hcon
        have : lptr - 1 = 0 := by omega
        rw [this] at hsw
        simp [bubblePass] at hsw
      exact ih (lptr - 1) _ hl1 (by rw [bubblePass_length]; omega) (by omega)
    · rfl

theorem sort_by_arrival_eq (queue : List Process) :
    sort_by_arrival queue = some (bubbleSort queue.length queue.length queue) := by
  match queue with
  | [] => simp [sort_by_arrival, bubbleSort]
  | [p] => simp [sort_by_arrival, bubbleSort, bubblePass]
  | p :: p2 :: rest =>
    simp only [sort_by_arrival]
    exact sortOuter_eq _ _ _ (by simp) (le_refl _) (le_refl _)

/-! ## The scheduling pass: claims -/

theorem sweep_append (time_quantum : Int) : ∀ (xs ys : List Process) (clock : Int),
    sweep time_quantum (xs ++ ys) clock
      = ((sweep time_quantum xs clock).1
            ++ (sweep time_quantum ys (sweep time_quantum xs clock).2.1).1,
          (sweep time_quantum ys (sweep time_quantum xs clock).2.1).2.1,
          (sweep time_quantum xs clock).2.2
            ++ (sweep time_quantum ys (sweep time_quantum xs clock).2.1).2.2) := by
  intro xs
  induction xs with
  | nil => intro ys clock; simp [sweep]
  | cons p rest ih =>
    intro ys clock
    simp only [List.cons_append, sweep]
    split <;> simp [ih]

theorem startClock_eq_max (p : Process) (clock : Int) :
    startClock p clock = max clock p.arrival_time := by
  unfold startClock
  split
  · rw [max_eq_right (by omega)]
  · rw [max_eq_left (by omega)]

theorem sweep_queue (time_quantum : Int) : ∀ (queue : List Process) (clock : Int),
    (sweep time_quantum queue clock).1
      = (queue.filter (fun p => decide (p.remaining_burst > time_quantum))).map
          (fun p => { p with remaining_burst := p.remaining_burst - time_quantum }) := by
  intro queue
  induction queue with
  | nil => intro clock; simp [sweep]
  | cons p rest ih =>
    intro clock
    simp only [sweep, slice]
    by_cases hlt : p.remaining_burst < time_quantum
    · have h1 : ¬ p.remaining_burst > time_quantum := by omega
      simp [hlt, h1, ih]
    · by_cases heq : p.remaining_burst = time_quantum
      · have h1 : ¬ p.remaining_burst > time_quantum := by omega
        simp [hlt, h1, ih, heq]
      · have h1 : p.remaining_burst > time_quantum := by omega
        have h2 : ¬ p.remaining_burst - time_quantum ≤ 0 := by omega
        simp [hlt, h1, h2, ih]

theorem sweep_length (time_quantum : Int) : ∀ (queue : List Process) (clock : Int),
    queue.length = (sweep time_quantum queue clock).1.length
      + (sweep time_quantum queue clock).2.2.length := by
  intro queue
  induction queue with
  | nil => intro clock; simp [sweep]
  | cons p rest ih =>
    intro clock
    have h := ih (wrap32 (startClock p clock + slice time_quantum p))
    simp only [sweep]
    split <;> simp only [List.length_cons] <;> omega

theorem sweep_result_keys (time_quantum : Int) : ∀ (queue : List Process) (clock : Int),
    ((sweep time_quantum queue clock).2.2).map resultKey
      = (queue.filter (fun p => decide (p.remaining_burst ≤ time_quantum))).map processKey := by
  intro queue
  induction queue with
  | nil => intro clock; simp [sweep]
  | cons p rest ih =>
    intro clock
    simp only [sweep, slice]
    by_cases hlt : p.remaining_burst < time_quantum
    · have h1 : p.remaining_burst ≤ time_quantum := by omega
      simp [hlt, h1, ih, resultKey, processKey]
    · by_cases heq : p.remaining_burst = time_quantum
      · have h1 : p.remaining_burst ≤ time_quantum := by omega
        simp [hlt, h1, ih, resultKey, processKey, heq]
      · have h1 : ¬ p.remaining_burst ≤ time_quantum := by omega
        have h2 : ¬ p.remaining_burst - time_quantum ≤ 0 := by omega
        simp [hlt, h1, h2, ih]

/-- C1, amended: in one `schedule` pass, a process `p` of the queue that has not
run yet (`remaining_burst = burst`) and whose burst is at most the quantum is
removed from the queue, and exactly one result `(pid, arrival_time, burst,
completion)` is appended for it.  The queue left is what the pass keeps of the
nodes in front followed by what it keeps of the nodes behind, and the ledger is
the old ledger, the results of the nodes in front, the result of `p`, and the
results of the nodes behind.  The completion is the `int` left by the addition
`max(clock_before, arrival_time) + burst`, where `clock_before` is the clock
when the sweep reaches `p`; it equals that sum whenever the sum is in the range
of `int`.  This holds for every quantum, so for 3, 2, 1. -/
theorem schedule_completes_short_process (front back : List Process) (p : Process)
    (time_quantum clock : Int) (results : List Result)
    (hfresh : p.remaining_burst = p.burst) (hshort : p.burst ≤ time_quantum) :
    let before := schedule front time_quantum clock []
    let completion := wrap32 (max before.global_clock p.arrival_time + p.burst)
    let after := schedule back time_quantum completion []
    schedule (front ++ p :: back) time_quantum clock results
        = ⟨before.queue ++ after.queue, after.global_clock,
            results ++ before.results
              ++ ⟨p.pid, p.arrival_time, p.burst, completion⟩ :: after.results⟩
      ∧ (InRange (max before.global_clock p.arrival_time + p.burst) →
          completion = max before.global_clock p.arrival_time + p.burst) := by
  have hslice : slice time_quantum p = p.burst := by
    unfold slice
    split <;> omega
  have hdone : p.remaining_burst - p.burst ≤ 0 := by omega
  refine ⟨?_, fun h => wrap32_of_inRange _ h⟩
  simp only [schedule_eq_sweep, sweep_append, sweep, hdone, if_true, hslice,
    startClock_eq_max, List.nil_append, List.append_assoc]

/-- Witness of C1, amended: pid 1 (arrival 0, burst 2) then pid 2 (arrival 1,
burst 1) in the first queue with quantum 3 and clock 0; the second process is
reached at clock 2 and completes at `max 2 1 + 1 = 3`. -/
theorem schedule_completes_short_process_witness :
    schedule ([⟨1, 100, 0, 2, 2⟩] ++ (⟨2, 100, 1, 1, 1⟩ : Process) :: []) TIME_Q1 0 []
      = ⟨[], 3, [⟨1, 0, 2, 2⟩, ⟨2, 1, 1, 3⟩]⟩ :=
  (schedule_completes_short_process [⟨1, 100, 0, 2, 2⟩] [] ⟨2, 100, 1, 1, 1⟩ TIME_Q1 0 []
    (by decide) (by decide)).1.trans (by decide)

/-- C1 as stated fails: pid 1 with arrival 2147483647 (`INT_MAX`) and burst 1
alone in the first queue, quantum 3, clock 0.  The clock jumps to the arrival
time and the addition of the slice 1 overflows: the completion recorded is
`-2147483648`, not `max(0, 2147483647) + 1 = 2147483648`. -/
theorem schedule_completes_overflow_counterexample :
    schedule [⟨1, 100, 2147483647, 1, 1⟩] TIME_Q1 0 []
        = ⟨[], -2147483648, [⟨1, 2147483647, 1, -2147483648⟩]⟩
      ∧ ¬ (∀ (front back : List Process) (p : Process) (time_quantum clock : Int)
            (results : List Result),
            p.remaining_burst = p.burst → p.burst ≤ time_quantum →
            let before := schedule front time_quantum clock []
            let completion := max before.global_clock p.arrival_time + p.burst
            let after := schedule back time_quantum completion []
            schedule (front ++ p :: back) time_quantum clock results
              = ⟨before.queue ++ after.queue, after.global_clock,
                  results ++ before.results
                    ++ ⟨p.pid, p.arrival_time, p.burst, completion⟩ :: after.results⟩) := by
  refine ⟨by decide, ?_⟩
  intro h
  exact absurd (h [] [] ⟨1, 100, 2147483647, 1, 1⟩ TIME_Q1 0 [] (by decide) (by decide))
    (by decide)

/-- C2: in one `schedule` pass, a process `p` of the queue that has not run yet
(`remaining_burst = burst`) and whose burst exceeds the quantum stays in the
queue, at its place between what the pass keeps of the nodes in front and of the
nodes behind, with `remaining_burst = burst - quantum`, and no result is
appended for it: the ledger is the old ledger, the results of the nodes in front
and the results of the nodes behind.  The nodes behind are reached with the
clock left by the addition of the quantum. -/
theorem schedule_keeps_long_process (front back : List Process) (p : Process)
    (time_quantum clock : Int) (results : List Result)
    (hfresh : p.remaining_burst = p.burst) (hlong : p.burst > time_quantum) :
    let before := schedule front time_quantum clock []
    let after := schedule back time_quantum
      (wrap32 (max before.global_clock p.arrival_time + time_quantum)) []
    schedule (front ++ p :: back) time_quantum clock results
      = ⟨before.queue ++ { p with remaining_burst := p.burst - time_quantum } :: after.queue,
          after.global_clock, results ++ before.results ++ after.results⟩ := by
  have hslice : slice time_quantum p = time_quantum := by
    unfold slice
    split <;> omega
  have hdone : ¬ p.burst - time_quantum ≤ 0 := by omega
  simp only [hfresh, schedule_eq_sweep, sweep_append, sweep, hdone, if_false, hslice,
    startClock_eq_max, List.nil_append, List.append_assoc]

/-- Witness of C2: pid 3 (priority 10, arrival 0, burst 5) alone in the third
queue with quantum 1 keeps `remaining_burst = 4` and the ledger stays empty,
in the pass and in a whole scheduler run from the initial state. -/
theorem schedule_keeps_long_process_witness :
    schedule ([] ++ (⟨3, 10, 0, 5, 5⟩ : Process) :: []) TIME_Q3 0 []
        = ⟨[⟨3, 10, 0, 5, 4⟩], 1, []⟩
      ∧ run_scheduler (add_process init 3 10 0 5)
        = some ⟨[], [], [⟨3, 10, 0, 5, 4⟩], [], 1⟩ :=
  ⟨(schedule_keeps_long_process [] [] ⟨3, 10, 0, 5, 5⟩ TIME_Q3 0 []
    (by decide) (by decide)).trans (by decide), by decide⟩

/-- C4: the queue after one `schedule` pass consists of exactly the processes
whose `remaining_burst` exceeded the quantum, in their original order, each with
`remaining_burst` reduced by the quantum once and all other fields unchanged.
The quantum may be any integer, so in particular any quantum `≥ 1`. -/
theorem schedule_queue_single_sweep (queue : List Process) (time_quantum clock : Int)
    (results : List Result) :
    (schedule queue time_quantum clock results).queue
      = (queue.filter (fun p => decide (p.remaining_burst > time_quantum))).map
          (fun p => { pid := p.pid, priority := p.priority, arrival_time := p.arrival_time,
                      burst := p.burst,
                      remaining_burst := p.remaining_burst - time_quantum }) := by
  rw [schedule_eq_sweep]
  exact sweep_queue time_quantum queue clock

/-! ## The sort: claims -/

/-- C5: `sort_by_arrival` returns, for every queue, a queue that holds the same
process records (a permutation of whole records) and whose `arrival_time` does
not decrease from head to tail. -/
theorem sort_by_arrival_perm_sorted (queue : List Process) :
    ∃ out, sort_by_arrival queue = some out ∧ out.Perm queue ∧ ArrivalSorted out := by
  refine ⟨_, sort_by_arrival_eq queue, bubbleSort_perm _ _ _, ?_⟩
  have h := bubbleSort_sorted queue.length queue [] (le_refl _) List.Pairwise.nil (by simp)
  simpa using h

/-- C6: `sort_by_arrival` is stable: for every arrival time `a`, the records
with `arrival_time = a` come in the output in the order they have in the
input. -/
theorem sort_by_arrival_stable (queue : List Process) :
    ∃ out, sort_by_arrival queue = some out ∧
      ∀ a : Int, out.filter (fun p => decide (p.arrival_time = a))
        = queue.filter (fun p => decide (p.arrival_time = a)) :=
  ⟨_, sort_by_arrival_eq queue, fun a => bubbleSort_filter a _ _ _⟩

/-- C7: `sort_by_arrival` is idempotent: sorting the sorted queue gives the
sorted queue again, and a queue whose `arrival_time` is already non-decreasing
is returned as the identical sequence of records. -/
theorem sort_by_arrival_idempotent (queue : List Process) :
    (sort_by_arrival queue).bind sort_by_arrival = sort_by_arrival queue
      ∧ (ArrivalSorted queue → sort_by_arrival queue = some queue) := by
  have hfix : ∀ q : List Process, ArrivalSorted q → sort_by_arrival q = some q := by
    intro q hq
    rw [sort_by_arrival_eq, bubbleSort_of_sorted _ _ _ hq]
  refine ⟨?_, hfix queue⟩
  have h := bubbleSort_sorted queue.length queue [] (le_refl _) List.Pairwise.nil (by simp)
  simp only [List.append_nil] at h
  rw [sort_by_arrival_eq queue, Option.some_bind]
  exact hfix _ h

/-- Witness of C7: the queue with arrivals 0, 1, 1 is non-decreasing and is
returned as it is; sorting a queue with arrivals 5, 3, 4 twice equals sorting it
once. -/
theorem sort_by_arrival_idempotent_witness :
    sort_by_arrival [⟨1, 0, 0, 1, 1⟩, ⟨2, 0, 1, 1, 1⟩, ⟨3, 0, 1, 1, 1⟩]
        = some [⟨1, 0, 0, 1, 1⟩, ⟨2, 0, 1, 1, 1⟩, ⟨3, 0, 1, 1, 1⟩]
      ∧ (sort_by_arrival [⟨1, 0, 5, 1, 1⟩, ⟨2, 0, 3, 1, 1⟩, ⟨3, 0, 4, 1, 1⟩]).bind sort_by_arrival
        = some [⟨2, 0, 3, 1, 1⟩, ⟨3, 0, 4, 1, 1⟩, ⟨1, 0, 5, 1, 1⟩] :=
  ⟨(sort_by_arrival_idempotent [⟨1, 0, 0, 1, 1⟩, ⟨2, 0, 1, 1, 1⟩, ⟨3, 0, 1, 1, 1⟩]).2 (by decide),
    ((sort_by_arrival_idempotent [⟨1, 0, 5, 1, 1⟩, ⟨2, 0, 3, 1, 1⟩, ⟨3, 0, 4, 1, 1⟩]).1).trans
      (by decide)⟩

/-! ## Admission: claim -/

/-- C8: adding a process puts it in exactly one queue chosen by its priority
alone: `priority ≥ 100` the first (high) queue, `50 ≤ priority ≤ 99` the second
(medium) queue, otherwise, which is `priority < 50`, the third (low) queue.
The new record has `remaining_burst = burst` and is the last of that queue, the
nodes already there keep their order, and the other two queues, the ledger and
the clock are unchanged. -/
theorem add_process_tier (s : State) (pid priority arrival_time burst : Int) :
    add_process s pid priority arrival_time burst
        = (if priority ≥ 100 then
            { s with q1 := s.q1 ++ [⟨pid, priority, arrival_time, burst, burst⟩] }
          else if 50 ≤ priority ∧ priority ≤ 99 then
            { s with q2 := s.q2 ++ [⟨pid, priority, arrival_time, burst, burst⟩] }
          else
            { s with q3 := s.q3 ++ [⟨pid, priority, arrival_time, burst, burst⟩] })
      ∧ ((¬ priority ≥ 100 ∧ ¬ (50 ≤ priority ∧ priority ≤ 99)) ↔ priority < 50) := by
  refine ⟨?_, by omega⟩
  unfold add_process
  simp only [enqueue_process_eq]
  by_cases h1 : priority ≥ 100
  · simp [h1]
  · by_cases h2 : priority ≥ 50
    · have h3 : 50 ≤ priority ∧ priority ≤ 99 := by omega
      simp [h1, h2, h3]
    · have h3 : ¬ (50 ≤ priority ∧ priority ≤ 99) := by omega
      simp [h1, h2, h3]

/-! ## A scheduler run: lemmas and claims -/

theorem specCompletions_append : ∀ (xs ys : List Process) (c : Int),
    specCompletions c (xs ++ ys) = specCompletions c xs ++ specCompletions (specClock c xs) ys := by
  intro xs
  induction xs with
  | nil => intro ys c; simp [specCompletions, specClock]
  | cons p rest ih => intro ys c; simp [specCompletions, specClock, ih]

theorem specClock_append : ∀ (xs ys : List Process) (c : Int),
    specClock c (xs ++ ys) = specClock (specClock c xs) ys := by
  intro xs
  induction xs with
  | nil => intro ys c; simp [specClock]
  | cons p rest ih => intro ys c; simp [specClock, ih]

theorem sweep_all_short (time_quantum : Int) : ∀ (queue : List Process) (clock : Int),
    (∀ p ∈ queue, p.remaining_burst = p.burst ∧ p.burst ≤ time_quantum) →
    (∀ r ∈ specCompletions clock queue, InRange r.completion) →
    sweep time_quantum queue clock = ([], specClock clock queue, specCompletions clock queue) := by
  intro queue
  induction queue with
  | nil => intro clock _ _; simp [sweep, specClock, specCompletions]
  | cons p rest ih =>
    intro clock h hr
    obtain ⟨hfresh, hshort⟩ := h p (by simp)
    have hslice : slice time_quantum p = p.burst := by
      unfold slice
      split <;> omega
    have hin : InRange (max clock p.arrival_time + p.burst) :=
      hr ⟨p.pid, p.arrival_time, p.burst, max clock p.arrival_time + p.burst⟩
        (by simp [specCompletions])
    have hw : wrap32 (startClock p clock + slice time_quantum p)
        = max clock p.arrival_time + p.burst := by
      rw [hslice, startClock_eq_max, wrap32_of_inRange _ hin]
    have hrest := ih (max clock p.arrival_time + p.burst)
      (fun q hq => h q (by simp [hq])) (fun r hr2 => hr r (by simp [specCompletions, hr2]))
    have hdone : p.remaining_burst - p.burst ≤ 0 := by omega
    simp only [sweep, hw, hrest]
    simp only [hslice, hdone, if_true, specClock, specCompletions]

theorem sweep_all_done (time_quantum : Int) (queue : List Process) (clock : Int)
    (h : ∀ p ∈ queue, p.remaining_burst ≤ time_quantum) :
    (sweep time_quantum queue clock).1 = []
      ∧ ((sweep time_quantum queue clock).2.2).map resultKey = queue.map processKey := by
  have e1 : queue.filter (fun p => decide (p.remaining_burst > time_quantum)) = [] := by
    rw [List.filter_eq_nil_iff]
    intro p hp
    have := h p hp
    simp only [gt_iff_lt, decide_eq_true_eq]
    omega
  have e2 : queue.filter (fun p => decide (p.remaining_burst ≤ time_quantum)) = queue := by
    rw [List.filter_eq_self]
    intro p hp
    simpa using h p hp
  refine ⟨by rw [sweep_queue, e1]; rfl, ?_⟩
  rw [sweep_result_keys, e2]

theorem run_scheduler_eq (s : State) :
    run_scheduler s = some (threePasses (bubbleSort s.q1.length s.q1.length s.q1)
      (bubbleSort s.q2.length s.q2.length s.q2) (bubbleSort s.q3.length s.q3.length s.q3)
      s.results) := by
  simp only [run_scheduler, sort_by_arrival_eq, threePasses]

theorem threePasses_results (o1 o2 o3 : List Process) (results : List Result) :
    (threePasses o1 o2 o3 results).results
      = results ++ ((sweep TIME_Q1 o1 0).2.2
          ++ ((sweep TIME_Q2 o2 (sweep TIME_Q1 o1 0).2.1).2.2
            ++ (sweep TIME_Q3 o3 (sweep TIME_Q2 o2 (sweep TIME_Q1 o1 0).2.1).2.1).2.2)) := by
  simp only [threePasses, schedule_eq_sweep, List.append_assoc]

theorem threePasses_all_short (o1 o2 o3 : List Process) (results : List Result)
    (h1 : ∀ p ∈ o1, p.remaining_burst = p.burst ∧ p.burst ≤ TIME_Q1)
    (h2 : ∀ p ∈ o2, p.remaining_burst = p.burst ∧ p.burst ≤ TIME_Q2)
    (h3 : ∀ p ∈ o3, p.remaining_burst = p.burst ∧ p.burst ≤ TIME_Q3) :
    (threePasses o1 o2 o3 results).q1 = [] ∧ (threePasses o1 o2 o3 results).q2 = []
      ∧ (threePasses o1 o2 o3 results).q3 = []
      ∧ (threePasses o1 o2 o3 results).results.map resultKey
          = results.map resultKey ++ (o1 ++ o2 ++ o3).map processKey
      ∧ ((∀ r ∈ specCompletions 0 (o1 ++ o2 ++ o3), InRange r.completion) →
          threePasses o1 o2 o3 results
            = { q1 := [], q2 := [], q3 := []
                results := results ++ specCompletions 0 (o1 ++ o2 ++ o3)
                global_clock := specClock 0 (o1 ++ o2 ++ o3) }) := by
  have d1 := fun c => sweep_all_done TIME_Q1 o1 c (fun p hp => by
    have := h1 p hp
    omega)
  have d2 := fun c => sweep_all_done TIME_Q2 o2 c (fun p hp => by
    have := h2 p hp
    omega)
  have d3 := fun c => sweep_all_done TIME_Q3 o3 c (fun p hp => by
    have := h3 p hp
    omega)
  refine ⟨?_, ?_, ?_, ?_, ?_⟩
  · simp only [threePasses, schedule_eq_sweep]
    exact (d1 _).1
  · simp only [threePasses, schedule_eq_sweep]
    exact (d2 _).1
  · simp only [threePasses, schedule_eq_sweep]
    exact (d3 _).1
  · rw [threePasses_results]
    simp only [List.map_append, (d1 _).2, (d2 _).2, (d3 _).2, List.append_assoc]
  · intro hr
    simp only [specCompletions_append, List.mem_append] at hr
    have e1 := sweep_all_short TIME_Q1 o1 0 h1 (fun r hr1 => hr r (Or.inl (Or.inl hr1)))
    have e2 := sweep_all_short TIME_Q2 o2 (specClock 0 o1) h2
      (fun r hr1 => hr r (Or.inl (Or.inr hr1)))
    have e3 := sweep_all_short TIME_Q3 o3 (specClock (specClock 0 o1) o2) h3
      (fun r hr1 => hr r (Or.inr (by simpa [specClock_append] using hr1)))
    simp only [threePasses, schedule_eq_sweep, e1, e2, e3, specCompletions_append,
      specClock_append, List.append_assoc]

/-- C3, amended: when every queued process has `remaining_burst = burst` and
`burst` at most the quantum of its queue (3 for the first, 2 for the second, 1
for the third), a scheduler run succeeds, empties the three queues, and appends
to the ledger exactly one result per process: those of the first queue in its
order sorted by arrival, then the second, then the third.  When every
`c_i = max(c_(i-1), arrival_i) + burst_i` with `c_0 = 0` is in the range of
`int`, the completion times are these `c_i`, the clock being carried from one
queue to the next.  The bound `0 ≤ burst` of the claim is not needed. -/
theorem run_scheduler_all_short (s : State)
    (h1 : ∀ p ∈ s.q1, p.remaining_burst = p.burst ∧ p.burst ≤ TIME_Q1)
    (h2 : ∀ p ∈ s.q2, p.remaining_burst = p.burst ∧ p.burst ≤ TIME_Q2)
    (h3 : ∀ p ∈ s.q3, p.remaining_burst = p.burst ∧ p.burst ≤ TIME_Q3) :
    ∃ o1 o2 o3 s1,
      (sort_by_arrival s.q1 = some o1 ∧ o1.Perm s.q1 ∧ ArrivalSorted o1) ∧
      (sort_by_arrival s.q2 = some o2 ∧ o2.Perm s.q2 ∧ ArrivalSorted o2) ∧
      (sort_by_arrival s.q3 = some o3 ∧ o3.Perm s.q3 ∧ ArrivalSorted o3) ∧
      run_scheduler s = some s1 ∧
      s1.q1 = [] ∧ s1.q2 = [] ∧ s1.q3 = [] ∧
      s1.results.map resultKey = s.results.map resultKey ++ (o1 ++ o2 ++ o3).map processKey ∧
      ((∀ r ∈ specCompletions 0 (o1 ++ o2 ++ o3), InRange r.completion) →
        s1 = { q1 := [], q2 := [], q3 := []
               results := s.results ++ specCompletions 0 (o1 ++ o2 ++ o3)
               global_clock := specClock 0 (o1 ++ o2 ++ o3) }) := by
  have sorted : ∀ q : List Process,
      ArrivalSorted (bubbleSort q.length q.length q) := by
    intro q
    have h := bubbleSort_sorted q.length q [] (le_refl _) List.Pairwise.nil (by simp)
    simpa using h
  have p1 := bubbleSort_perm s.q1.length s.q1.length s.q1
  have p2 := bubbleSort_perm s.q2.length s.q2.length s.q2
  have p3 := bubbleSort_perm s.q3.length s.q3.length s.q3
  obtain ⟨a1, a2, a3, a4, a5⟩ := threePasses_all_short _ _ _ s.results
    (fun p hp => h1 p (p1.subset hp)) (fun p hp => h2 p (p2.subset hp))
    (fun p hp => h3 p (p3.subset hp))
  exact ⟨_, _, _, _, ⟨sort_by_arrival_eq s.q1, p1, sorted _⟩,
    ⟨sort_by_arrival_eq s.q2, p2, sorted _⟩, ⟨sort_by_arrival_eq s.q3, p3, sorted _⟩,
    run_scheduler_eq s, a1, a2, a3, a4, a5⟩

/-- Witness of C3, amended: pid 1 (priority 100, arrival 0, burst 2) and pid 2
(priority 100, arrival 1, burst 1) are added to the initial state; the run
leaves a ledger of two results with completion times 2 and 3. -/
theorem run_scheduler_all_short_witness :
    run_scheduler (add_process (add_process init 1 100 0 2) 2 100 1 1)
        = some ⟨[], [], [], [⟨1, 0, 2, 2⟩, ⟨2, 1, 1, 3⟩], 3⟩
      ∧ ∃ o1 o2 o3 s1,
          sort_by_arrival (add_process (add_process init 1 100 0 2) 2 100 1 1).q1 = some o1
            ∧ sort_by_arrival (add_process (add_process init 1 100 0 2) 2 100 1 1).q2 = some o2
            ∧ sort_by_arrival (add_process (add_process init 1 100 0 2) 2 100 1 1).q3 = some o3
            ∧ run_scheduler (add_process (add_process init 1 100 0 2) 2 100 1 1) = some s1
            ∧ s1.q1 = [] ∧ s1.q2 = [] ∧ s1.q3 = [] := by
  refine ⟨by decide, ?_⟩
  obtain ⟨o1, o2, o3, s1, e1, e2, e3, hrun, a1, a2, a3, _⟩ :=
    run_scheduler_all_short (add_process (add_process init 1 100 0 2) 2 100 1 1)
      (by decide) (by decide) (by decide)
  exact ⟨o1, o2, o3, s1, e1.1, e2.1, e3.1, hrun, a1, a2, a3⟩

/-- C3 as stated fails: pid 1 (priority 100, arrival 2147483647, burst 1) is
added and the scheduler runs.  The process completes, but the addition of the
slice to the clock `2147483647` overflows: the completion recorded is
`-2147483648`, not `c_1 = max(0, 2147483647) + 1 = 2147483648`. -/
theorem run_scheduler_overflow_counterexample :
    runCmds init [Cmd.add 1 100 2147483647 1, Cmd.run]
        = some ⟨[], [], [], [⟨1, 2147483647, 1, -2147483648⟩], -2147483648⟩
      ∧ specCompletions 0 [⟨1, 100, 2147483647, 1, 1⟩] = [⟨1, 2147483647, 1, 2147483648⟩]
      ∧ ¬ (∀ s : State,
            (∀ p ∈ s.q1, p.remaining_burst = p.burst ∧ 0 ≤ p.burst ∧ p.burst ≤ TIME_Q1) →
            (∀ p ∈ s.q2, p.remaining_burst = p.burst ∧ 0 ≤ p.burst ∧ p.burst ≤ TIME_Q2) →
            (∀ p ∈ s.q3, p.remaining_burst = p.burst ∧ 0 ≤ p.burst ∧ p.burst ≤ TIME_Q3) →
            ∃ o1 o2 o3,
              sort_by_arrival s.q1 = some o1 ∧ sort_by_arrival s.q2 = some o2
                ∧ sort_by_arrival s.q3 = some o3
                ∧ ∃ s1, run_scheduler s = some s1
                    ∧ s1.results = s.results ++ specCompletions 0 (o1 ++ o2 ++ o3)) := by
  refine ⟨by decide, by decide, ?_⟩
  intro h
  obtain ⟨o1, o2, o3, e1, e2, e3, s1, hrun, hres⟩ :=
    h ⟨[⟨1, 100, 2147483647, 1, 1⟩], [], [], [], 0⟩ (by decide) (by decide) (by decide)
  have f1 : o1 = [⟨1, 100, 2147483647, 1, 1⟩] := by
    simpa [sort_by_arrival] using e1.symm
  have f2 : o2 = [] := by simpa [sort_by_arrival] using e2.symm
  have f3 : o3 = [] := by simpa [sort_by_arrival] using e3.symm
  have f4 : s1 = ⟨[], [], [], [⟨1, 2147483647, 1, -2147483648⟩], -2147483648⟩ := by
    have : run_scheduler ⟨[⟨1, 100, 2147483647, 1, 1⟩], [], [], [], 0⟩
        = some ⟨[], [], [], [⟨1, 2147483647, 1, -2147483648⟩], -2147483648⟩ := by decide
    rw [this] at hrun
    exact (Option.some.inj hrun).symm
  subst f1 f2 f3 f4
  exact absurd hres (by decide)

/-! ## Reporting: lemmas and claims -/

theorem printLoop_eq : ∀ (results : List Result) (acc : Report),
    (printLoop results acc).rows = acc.rows ++ results.map rowOf
      ∧ (printLoop results acc).count = acc.count + results.length := by
  intro results
  induction results with
  | nil => intro acc; simp [printLoop]
  | cons r rest ih =>
    intro acc
    obtain ⟨h1, h2⟩ := ih
      { rows := acc.rows ++ [⟨r.pid, r.arrival, r.burst, r.completion,
          wrap32 (wrap32 (r.completion - r.arrival) - r.burst)⟩]
        total_wait := acc.total_wait + wrap32 (wrap32 (r.completion - r.arrival) - r.burst)
        total_tat := acc.total_tat + wrap32 (r.completion - r.arrival)
        count := acc.count + 1 }
    simp only [printLoop, h1, h2]
    refine ⟨by simp [rowOf], ?_⟩
    simp only [List.length_cons]
    push_cast
    ring

theorem print_results_some (results : List Result) (rep : Report)
    (h : print_results results = some rep) :
    results ≠ [] ∧ rep = printLoop results ⟨[], 0, 0, 0⟩ := by
  cases results with
  | nil => simp [print_results] at h
  | cons r rest =>
    simp only [print_results, Option.some.injEq] at h
    exact ⟨by simp, h.symm⟩

theorem rowOf_wait (r : Result) (h1 : InRange (r.completion - r.arrival))
    (h2 : InRange (r.completion - r.arrival - r.burst)) : (rowOf r).wait = specWaiting r := by
  simp only [rowOf, specWaiting, wrap32_of_inRange _ h1, wrap32_of_inRange _ h2]

theorem noOverflow_cons (time_quantum : Int) (p : Process) (rest : List Process) (clock : Int) :
    NoOverflow time_quantum (p :: rest) clock
      ↔ InRange (startClock p clock + slice time_quantum p)
        ∧ NoOverflow time_quantum rest (wrap32 (startClock p clock + slice time_quantum p)) := by
  simp [NoOverflow, clockSums]

theorem sweep_clock_cons (time_quantum : Int) (p : Process) (rest : List Process) (clock : Int) :
    (sweep time_quantum (p :: rest) clock).2.1
      = (sweep time_quantum rest (wrap32 (startClock p clock + slice time_quantum p))).2.1 := by
  simp only [sweep]
  split <;> rfl

theorem noOverflow_append (time_quantum : Int) : ∀ (xs ys : List Process) (clock : Int),
    NoOverflow time_quantum (xs ++ ys) clock
      ↔ NoOverflow time_quantum xs clock
        ∧ NoOverflow time_quantum ys (sweep time_quantum xs clock).2.1 := by
  intro xs
  induction xs with
  | nil => intro ys clock; simp [NoOverflow, clockSums, sweep]
  | cons p rest ih =>
    intro ys clock
    rw [List.cons_append, noOverflow_cons, noOverflow_cons, ih, sweep_clock_cons, and_assoc]

theorem sweep_first_pass (time_quantum : Int) : ∀ (queue : List Process) (clock : Int),
    NoOverflow time_quantum queue clock →
    List.Forall₂ FirstPassWait (sweep time_quantum queue clock).2.2
      (completedBy time_quantum queue) := by
  intro queue
  induction queue with
  | nil => intro clock _; simp [sweep, completedBy]
  | cons p rest ih =>
    intro clock h
    obtain ⟨hin, hrest⟩ := (noOverflow_cons time_quantum p rest clock).mp h
    have hstep := ih _ hrest
    have hstart : p.arrival_time ≤ startClock p clock := by
      rw [startClock_eq_max]
      exact le_max_right _ _
    simp only [completedBy] at hstep ⊢
    by_cases hle : p.remaining_burst ≤ time_quantum
    · have hslice : slice time_quantum p = p.remaining_burst := by
        unfold slice
        split <;> omega
      have hdone : p.remaining_burst - p.remaining_burst ≤ 0 := by omega
      rw [hslice] at hin
      simp only [sweep, hslice, hdone, if_true, List.filter_cons, hle, decide_True,
        wrap32_of_inRange _ hin]
      refine List.Forall₂.cons ⟨rfl, fun hfresh => ?_⟩ ?_
      · simp only [specWaiting]
        omega
      · simpa only [hslice, wrap32_of_inRange _ hin] using hstep
    · have hslice : slice time_quantum p = time_quantum := by
        unfold slice
        split <;> omega
      have hdone : ¬ p.remaining_burst - time_quantum ≤ 0 := by omega
      simp only [sweep, hslice, hdone, if_false, List.filter_cons, hle, decide_False,
        Bool.false_eq_true]
      simpa only [hslice] using hstep

theorem threePasses_first_pass (o1 o2 o3 : List Process) (h : RunInRange o1 o2 o3) :
    List.Forall₂ FirstPassWait
      ((sweep TIME_Q1 o1 0).2.2
        ++ ((sweep TIME_Q2 o2 (sweep TIME_Q1 o1 0).2.1).2.2
          ++ (sweep TIME_Q3 o3 (sweep TIME_Q2 o2 (sweep TIME_Q1 o1 0).2.1).2.1).2.2))
      (completedBy TIME_Q1 o1 ++ (completedBy TIME_Q2 o2 ++ completedBy TIME_Q3 o3)) := by
  simp only [RunInRange, schedule_eq_sweep] at h
  obtain ⟨h1, h2, h3⟩ := h
  exact List.rel_append (sweep_first_pass TIME_Q1 o1 0 h1)
    (List.rel_append (sweep_first_pass TIME_Q2 o2 _ h2) (sweep_first_pass TIME_Q3 o3 _ h3))

/-- C9, amended: after a scheduler run from any state, `print_results` prints
one line per ledger entry, in ledger order, with the entry's pid, arrival, burst
and completion; the waiting time on the line equals
`(completion - arrival) - burst` whenever the two subtractions stay in the range
of `int`.  The run appends one result per process it completes, in the order of
the sorted queues, and the waiting time `(completion - arrival) - burst` of such
a result is `≥ 0` when its process had not run before (`remaining_burst = burst`
when the run began), provided no addition to the clock overflows in the run. -/
theorem waiting_time_after_run (s s1 : State) (rep : Report)
    (hrun : run_scheduler s = some s1) (hrep : print_results s1.results = some rep) :
    rep.rows = s1.results.map rowOf
      ∧ (∀ r ∈ s1.results, (rowOf r).pid = r.pid ∧ (rowOf r).arrival = r.arrival
          ∧ (rowOf r).burst = r.burst ∧ (rowOf r).completion = r.completion
          ∧ (InRange (r.completion - r.arrival) → InRange (r.completion - r.arrival - r.burst) →
              (rowOf r).wait = (r.completion - r.arrival) - r.burst))
      ∧ ∃ o1 o2 o3 new,
          sort_by_arrival s.q1 = some o1 ∧ sort_by_arrival s.q2 = some o2
            ∧ sort_by_arrival s.q3 = some o3
            ∧ s1.results = s.results ++ new
            ∧ (RunInRange o1 o2 o3 →
                List.Forall₂ FirstPassWait new
                  (completedBy TIME_Q1 o1 ++ (completedBy TIME_Q2 o2 ++ completedBy TIME_Q3 o3))) := by
  obtain ⟨_, hrep⟩ := print_results_some _ _ hrep
  have hrows := (printLoop_eq s1.results ⟨[], 0, 0, 0⟩).1
  rw [← hrep] at hrows
  simp only [List.nil_append] at hrows
  refine ⟨hrows, ?_, ?_⟩
  · intro r _
    exact ⟨rfl, rfl, rfl, rfl, fun h1 h2 => rowOf_wait r h1 h2⟩
  · rw [run_scheduler_eq, Option.some.injEq] at hrun
    subst hrun
    exact ⟨_, _, _, _, sort_by_arrival_eq s.q1, sort_by_arrival_eq s.q2,
      sort_by_arrival_eq s.q3, threePasses_results _ _ _ _, threePasses_first_pass _ _ _⟩

/-- Witness of C9, amended: pid 1 (priority 100, arrival 0, burst 2) and pid 2
(priority 100, arrival 1, burst 1) are queued and the scheduler runs; the two
lines printed have waiting times 0 and 1. -/
theorem waiting_time_after_run_witness :
    (⟨[⟨1, 0, 2, 2, 0⟩, ⟨2, 1, 1, 3, 1⟩], 1, 4, 2⟩ : Report).rows
      = (⟨[], [], [], [⟨1, 0, 2, 2⟩, ⟨2, 1, 1, 3⟩], 3⟩ : State).results.map rowOf :=
  (waiting_time_after_run ⟨[⟨1, 100, 0, 2, 2⟩, ⟨2, 100, 1, 1, 1⟩], [], [], [], 0⟩
    ⟨[], [], [], [⟨1, 0, 2, 2⟩, ⟨2, 1, 1, 3⟩], 3⟩
    ⟨[⟨1, 0, 2, 2, 0⟩, ⟨2, 1, 1, 3, 1⟩], 1, 4, 2⟩ (by decide) (by decide)).1

/-- C9 as stated fails: pid 1 (priority 100, arrival 0, burst 5) is added and
the scheduler runs twice.  The first run leaves `remaining_burst = 2`; the second
run starts its clock at 0 again and completes the process at clock 2.  The line
printed has arrival `0 ≤` completion `2`, and waiting time `2 - 0 - 5 = -3`.
The equation fails as well when a subtraction overflows: for pid 2 added with
arrival `-2147483648` and burst 0 the run records completion 0, and the line
printed has waiting time `-2147483648`, not `0 - (-2147483648) - 0`. -/
theorem waiting_time_counterexample :
    runCmds init [Cmd.add 1 100 0 5, Cmd.run, Cmd.run]
        = some ⟨[], [], [], [⟨1, 0, 5, 2⟩], 2⟩
      ∧ print_results [⟨1, 0, 5, 2⟩] = some ⟨[⟨1, 0, 5, 2, -3⟩], -3, 2, 1⟩
      ∧ runCmds init [Cmd.add 2 100 (-2147483648) 0, Cmd.run]
        = some ⟨[], [], [], [⟨2, -2147483648, 0, 0⟩], 0⟩
      ∧ print_results [⟨2, -2147483648, 0, 0⟩]
        = some ⟨[⟨2, -2147483648, 0, 0, -2147483648⟩], -2147483648, -2147483648, 1⟩
      ∧ ¬ (∀ (cmds : List Cmd) (s : State) (rep : Report),
            runCmds init cmds = some s → print_results s.results = some rep →
            ∀ row ∈ rep.rows, row.wait = (row.completion - row.arrival) - row.burst
              ∧ (row.arrival ≤ row.completion → 0 ≤ row.wait)) := by
  refine ⟨by decide, by decide, by decide, by decide, ?_⟩
  intro h
  have h1 := h [Cmd.add 1 100 0 5, Cmd.run, Cmd.run] ⟨[], [], [], [⟨1, 0, 5, 2⟩], 2⟩
    ⟨[⟨1, 0, 5, 2, -3⟩], -3, 2, 1⟩ (by decide) (by decide) ⟨1, 0, 5, 2, -3⟩ (by simp)
  exact absurd (h1.2 (by decide)) (by decide)

/-- C10: `print_results` gives the "no results" outcome exactly when the ledger
is empty, and then computes no average; whenever it computes the averages, the
divisor `count` is the number of ledger entries and is `≥ 1`, and one line is
printed per entry. -/
theorem print_results_no_data (results : List Result) :
    (print_results results = none ↔ results = [])
      ∧ ∀ rep, print_results results = some rep →
          rep.count = results.length ∧ 1 ≤ rep.count ∧ rep.rows.length = results.length
            ∧ average_wait rep = (rep.total_wait : ℚ) / (results.length : ℚ)
            ∧ average_tat rep = (rep.total_tat : ℚ) / (results.length : ℚ) := by
  constructor
  · cases results with
    | nil => simp [print_results]
    | cons r rest => simp [print_results]
  · intro rep hrep
    obtain ⟨hne, hrep⟩ := print_results_some _ _ hrep
    obtain ⟨hrows, hcount⟩ := printLoop_eq results ⟨[], 0, 0, 0⟩
    rw [← hrep] at hrows hcount
    simp only [zero_add] at hcount
    have hpos : 1 ≤ results.length := by
      cases results with
      | nil => exact absurd rfl hne
      | cons r rest => simp
    refine ⟨hcount, by omega, by simp [hrows], ?_, ?_⟩
    · simp [average_wait, hcount]
    · simp [average_tat, hcount]

/-- Witness of C10: the empty ledger gives the "no results" outcome; a ledger of
two entries gives averages with divisor 2. -/
theorem print_results_no_data_witness :
    print_results [] = none
      ∧ ((⟨[⟨1, 0, 2, 2, 0⟩, ⟨2, 1, 1, 3, 1⟩], 1, 4, 2⟩ : Report).count
            = ([⟨1, 0, 2, 2⟩, ⟨2, 1, 1, 3⟩] : List Result).length
          ∧ 1 ≤ (⟨[⟨1, 0, 2, 2, 0⟩, ⟨2, 1, 1, 3, 1⟩], 1, 4, 2⟩ : Report).count) :=
  ⟨(print_results_no_data []).1.mpr rfl,
    let h := (print_results_no_data [⟨1, 0, 2, 2⟩, ⟨2, 1, 1, 3⟩]).2
      ⟨[⟨1, 0, 2, 2, 0⟩, ⟨2, 1, 1, 3, 1⟩], 1, 4, 2⟩ (by decide)
    ⟨h.1, h.2.1⟩⟩

/-! ## The clock and the ledger in a pass: lemmas and claims -/

theorem slice_nonneg (time_quantum : Int) (p : Process) (hq : 0 ≤ time_quantum)
    (hp : 0 ≤ p.remaining_burst) : 0 ≤ slice time_quantum p := by
  unfold slice
  split <;> omega

theorem sweep_clock_le (time_quantum : Int) (hq : 0 ≤ time_quantum) :
    ∀ (queue : List Process) (clock : Int), (∀ p ∈ queue, 0 ≤ p.remaining_burst) →
      NoOverflow time_quantum queue clock →
      clock ≤ (sweep time_quantum queue clock).2.1 := by
  intro queue
  induction queue with
  | nil => intro clock _ _; simp [sweep]
  | cons p rest ih =>
    intro clock h hno
    obtain ⟨hin, hrest⟩ := (noOverflow_cons time_quantum p rest clock).mp hno
    have h1 := slice_nonneg time_quantum p hq (h p (by simp))
    have h2 := ih _ (fun q hq => h q (by simp [hq])) hrest
    have h3 : clock ≤ startClock p clock := by
      rw [startClock_eq_max]
      exact le_max_left _ _
    rw [sweep_clock_cons, wrap32_of_inRange _ hin]
    rw [wrap32_of_inRange _ hin] at h2
    omega

/-- C11, amended: when the quantum is not negative, no process of the queue has
a negative `remaining_burst`, and no addition to the clock overflows in the
pass, the clock never decreases during a `schedule` pass: the clock when the
sweep has handled the nodes `front` is at least the starting clock, and the
clock after any further nodes `back` is at least that value; so the clock after
the pass is at least the clock before it. -/
theorem schedule_clock_monotone (front back : List Process) (time_quantum clock : Int)
    (results : List Result) (hq : 0 ≤ time_quantum)
    (hrem : ∀ p ∈ front ++ back, 0 ≤ p.remaining_burst)
    (hrange : NoOverflow time_quantum (front ++ back) clock) :
    clock ≤ (schedule front time_quantum clock results).global_clock
      ∧ (schedule front time_quantum clock results).global_clock
          ≤ (schedule (front ++ back) time_quantum clock results).global_clock := by
  obtain ⟨hn1, hn2⟩ := (noOverflow_append time_quantum front back clock).mp hrange
  simp only [schedule_eq_sweep, sweep_append]
  exact ⟨sweep_clock_le time_quantum hq front clock (fun p hp => hrem p (by simp [hp])) hn1,
    sweep_clock_le time_quantum hq back _ (fun p hp => hrem p (by simp [hp])) hn2⟩

/-- Witness of C11, amended: pid 1 (arrival 4, burst 2) then pid 2 (arrival 0,
burst 5) with quantum 3 from clock 0: the clock is 6 after the first node and 9
after the second. -/
theorem schedule_clock_monotone_witness :
    (0 : Int) ≤ (schedule [⟨1, 100, 4, 2, 2⟩] 3 0 []).global_clock
      ∧ (schedule [⟨1, 100, 4, 2, 2⟩] 3 0 []).global_clock
          ≤ (schedule ([⟨1, 100, 4, 2, 2⟩] ++ [⟨2, 100, 0, 5, 5⟩]) 3 0 []).global_clock
      ∧ (schedule [⟨1, 100, 4, 2, 2⟩] 3 0 []).global_clock = 6
      ∧ (schedule ([⟨1, 100, 4, 2, 2⟩] ++ [⟨2, 100, 0, 5, 5⟩]) 3 0 []).global_clock = 9 :=
  ⟨(schedule_clock_monotone [⟨1, 100, 4, 2, 2⟩] [⟨2, 100, 0, 5, 5⟩] 3 0 []
      (by decide) (by decide) (by decide)).1,
    (schedule_clock_monotone [⟨1, 100, 4, 2, 2⟩] [⟨2, 100, 0, 5, 5⟩] 3 0 []
      (by decide) (by decide) (by decide)).2, by decide, by decide⟩

/-- C11 as stated fails: pid 1 with burst `-5` (priority 100, arrival 0) is
added and the scheduler runs.  In the pass over the first queue with quantum 3
the slice is `remaining_burst = -5`, so the clock goes from 0 to `-5`. -/
theorem schedule_clock_counterexample :
    schedule [⟨1, 100, 0, -5, -5⟩] TIME_Q1 0 [] = ⟨[], -5, [⟨1, 0, -5, -5⟩]⟩
      ∧ runCmds init [Cmd.add 1 100 0 (-5), Cmd.run]
          = some ⟨[], [], [], [⟨1, 0, -5, -5⟩], -5⟩
      ∧ ¬ (∀ (queue : List Process) (time_quantum clock : Int) (results : List Result),
            clock ≤ (schedule queue time_quantum clock results).global_clock) := by
  refine ⟨by decide, by decide, ?_⟩
  intro h
  exact absurd (h [⟨1, 100, 0, -5, -5⟩] TIME_Q1 0 []) (by decide)

/-- C14: the ledger is append-only.  `record_result` puts the new result after
the last one; after a `schedule` pass the ledger is the ledger `L` it started
from followed by the results the pass records (those it records from an empty
ledger); and a scheduler run always succeeds and leaves the old ledger followed
by new results.  So every entry of `L` stays, unchanged, at its position. -/
theorem ledger_append_only (queue : List Process) (time_quantum clock : Int)
    (results : List Result) (pid arrival burst completion : Int) (s : State) :
    record_result results pid arrival burst completion
        = results ++ [⟨pid, arrival, burst, completion⟩]
      ∧ (schedule queue time_quantum clock results).results
        = results ++ (schedule queue time_quantum clock []).results
      ∧ ∃ s1 new, run_scheduler s = some s1 ∧ s1.results = s.results ++ new := by
  exact ⟨record_result_eq _ _ _ _ _, by simp [schedule_eq_sweep],
    _, _, run_scheduler_eq s, threePasses_results _ _ _ _⟩

/-- C16: scheduling an empty queue is a no-op: for every quantum, clock and
ledger the queue stays empty, the clock and the ledger are unchanged, and no
result is recorded. -/
theorem schedule_empty_queue (time_quantum clock : Int) (results : List Result) :
    schedule [] time_quantum clock results = ⟨[], clock, results⟩ := rfl

/-- C19: a `schedule` pass neither loses nor duplicates processes.  The ledger
after the pass is the old ledger followed by new results whose pid, arrival and
burst are, one for one and in the same order, those of the processes with
`remaining_burst ≤ quantum`; the queue left is made of the other processes; so
the length of the queue before is the length after plus the number of results
appended.  Processes are told apart by position, so equal records are counted
separately. -/
theorem schedule_conserves_processes (queue : List Process) (time_quantum clock : Int)
    (results : List Result) :
    ∃ new, (schedule queue time_quantum clock results).results = results ++ new
      ∧ new.map resultKey
          = (queue.filter (fun p => decide (p.remaining_burst ≤ time_quantum))).map processKey
      ∧ (schedule queue time_quantum clock results).queue.map processKey
          = (queue.filter (fun p => decide (p.remaining_burst > time_quantum))).map processKey
      ∧ queue.length = (schedule queue time_quantum clock results).queue.length + new.length := by
  refine ⟨(sweep time_quantum queue clock).2.2, by simp [schedule_eq_sweep],
    sweep_result_keys time_quantum queue clock, ?_, ?_⟩
  · simp only [schedule_eq_sweep, sweep_queue, List.map_map]
    rfl
  · simp only [schedule_eq_sweep]
    exact sweep_length time_quantum queue clock

/-! ## Invariants of the queues: lemmas and claims -/

theorem sweep_mem (time_quantum : Int) (queue : List Process) (clock : Int) (p1 : Process)
    (h : p1 ∈ (sweep time_quantum queue clock).1) :
    ∃ p ∈ queue, p.remaining_burst > time_quantum
      ∧ p1 = { p with remaining_burst := p.remaining_burst - time_quantum } := by
  rw [sweep_queue] at h
  obtain ⟨p, hp, rfl⟩ := List.mem_map.mp h
  have hp2 := List.mem_filter.mp hp
  exact ⟨p, hp2.1, by simpa using hp2.2, rfl⟩



theorem sort_by_arrival_mem (queue out : List Process) (h : sort_by_arrival queue = some out)
    (p : Process) (hp : p ∈ out) : p ∈ queue := by
  rw [sort_by_arrival_eq, Option.some.injEq] at h
  subst h
  exact (bubbleSort_perm _ _ _).subset hp

theorem queued_step (Q : Process → Prop)
    (hQ : ∀ (p : Process) (time_quantum : Int), 0 ≤ time_quantum → Q p →
      p.remaining_burst > time_quantum →
      Q { p with remaining_burst := p.remaining_burst - time_quantum })
    (s s1 : State) (c : Cmd) (hinv : ∀ p ∈ s.q1 ++ s.q2 ++ s.q3, Q p)
    (hc : ∀ pid priority arrival_time burst, c = Cmd.add pid priority arrival_time burst →
      Q ⟨pid, priority, arrival_time, burst, burst⟩)
    (hs : step s c = some s1) : ∀ p ∈ s1.q1 ++ s1.q2 ++ s1.q3, Q p := by
  have h1 : ∀ p ∈ s.q1, Q p := fun p hp => hinv p (by simp [hp])
  have h2 : ∀ p ∈ s.q2, Q p := fun p hp => hinv p (by simp [hp])
  have h3 : ∀ p ∈ s.q3, Q p := fun p hp => hinv p (by simp [hp])
  cases c with
  | add pid priority arrival_time burst =>
    simp only [step, Option.some.injEq] at hs
    subst hs
    have hnew := hc pid priority arrival_time burst rfl
    unfold add_process
    simp only [enqueue_process_eq]
    intro p hp
    have hcase : p ∈ s.q1 ∨ p ∈ s.q2 ∨ p ∈ s.q3
        ∨ p = ⟨pid, priority, arrival_time, burst, burst⟩ := by
      by_cases p1 : priority ≥ 100
      · simp only [p1, if_true, List.mem_append, List.mem_singleton] at hp
        tauto
      · by_cases p2 : priority ≥ 50
        · simp only [p1, p2, if_true, if_false, List.mem_append, List.mem_singleton] at hp
          tauto
        · simp only [p1, p2, if_false, List.mem_append, List.mem_singleton] at hp
          tauto
    rcases hcase with hp | hp | hp | hp
    · exact h1 p hp
    · exact h2 p hp
    · exact h3 p hp
    · subst hp
      exact hnew
  | run =>
    rw [step, run_scheduler_eq, Option.some.injEq] at hs
    subst hs
    have pass : ∀ (q : List Process) (time_quantum clock : Int) (results : List Result),
        0 ≤ time_quantum → (∀ p ∈ q, Q p) →
        ∀ p ∈ (schedule (bubbleSort q.length q.length q) time_quantum clock results).queue,
          Q p := by
      intro q time_quantum clock results hq hall p1 hp1
      rw [schedule_eq_sweep] at hp1
      obtain ⟨p, hp, hgt, rfl⟩ := sweep_mem time_quantum _ clock p1 hp1
      exact hQ p time_quantum hq (hall p ((bubbleSort_perm _ _ _).subset hp)) hgt
    intro p hp
    simp only [threePasses, List.mem_append] at hp
    rcases hp with (hp | hp) | hp
    · exact pass _ TIME_Q1 _ _ (by decide) h1 p hp
    · exact pass _ TIME_Q2 _ _ (by decide) h2 p hp
    · exact pass _ TIME_Q3 _ _ (by decide) h3 p hp
  | reset =>
    simp only [step, Option.some.injEq] at hs
    subst hs
    simp [reset]

theorem queued_runCmds (Q : Process → Prop)
    (hQ : ∀ (p : Process) (time_quantum : Int), 0 ≤ time_quantum → Q p →
      p.remaining_burst > time_quantum →
      Q { p with remaining_burst := p.remaining_burst - time_quantum }) :
    ∀ (cmds : List Cmd) (s s1 : State), (∀ p ∈ s.q1 ++ s.q2 ++ s.q3, Q p) →
      (∀ c ∈ cmds, ∀ pid priority arrival_time burst,
        c = Cmd.add pid priority arrival_time burst →
        Q ⟨pid, priority, arrival_time, burst, burst⟩) →
      runCmds s cmds = some s1 → ∀ p ∈ s1.q1 ++ s1.q2 ++ s1.q3, Q p := by
  intro cmds
  induction cmds with
  | nil =>
    intro s s1 hinv _ hs
    simp only [runCmds, Option.some.injEq] at hs
    subst hs
    exact hinv
  | cons c rest ih =>
    intro s s1 hinv hall hs
    simp only [runCmds] at hs
    cases hstep : step s c with
    | none => simp [hstep] at hs
    | some s2 =>
      simp only [hstep] at hs
      exact ih s2 s1 (queued_step Q hQ s s2 c hinv (hall c (by simp)) hstep)
        (fun d hd => hall d (by simp [hd])) hs

theorem burstInv_pass (p : Process) (time_quantum : Int) (hq : 0 ≤ time_quantum)
    (h : BurstInv p) (hgt : p.remaining_burst > time_quantum) :
    BurstInv { p with remaining_burst := p.remaining_burst - time_quantum } := by
  obtain ⟨h0, h1⟩ := h
  exact ⟨by show 0 ≤ p.remaining_burst - time_quantum; omega,
    by show p.remaining_burst - time_quantum ≤ p.burst; omega⟩

theorem burstInv_runCmds (cmds : List Cmd) (s : State) (hnn : NonNegBursts cmds)
    (hs : runCmds init cmds = some s) : ∀ p ∈ s.q1 ++ s.q2 ++ s.q3, BurstInv p := by
  refine queued_runCmds BurstInv burstInv_pass cmds init s (by simp [init]) ?_ hs
  intro c hc pid priority arrival_time burst e
  have := hnn c hc
  subst e
  simp only [nonNegCmd, decide_eq_true_eq] at this
  exact ⟨this, le_refl _⟩

/-- C12, amended: `0 ≤ remaining_burst ≤ burst` holds for a process when it is
added exactly when its `burst` is `≥ 0`.  `sort_by_arrival` returns the queued
records as they are, so it keeps the property of each process; a `schedule` pass
with a quantum that is not negative, so with 3, 2 and 1, keeps the property of
each process it leaves in the queue, whatever the other processes are.  Hence in
every state reached from the initial state, every queued process with
`burst ≥ 0` has `0 ≤ remaining_burst ≤ burst`. -/
theorem burst_invariant (pid priority arrival_time burst : Int)
    (queue : List Process) (time_quantum clock : Int) (results : List Result)
    (cmds : List Cmd) :
    (BurstInv ⟨pid, priority, arrival_time, burst, burst⟩ ↔ 0 ≤ burst)
      ∧ (∀ out, sort_by_arrival queue = some out → ∀ p ∈ out, p ∈ queue)
      ∧ (0 ≤ time_quantum → ∀ p1 ∈ (schedule queue time_quantum clock results).queue,
          ∃ p ∈ queue, p1 = { p with remaining_burst := p.remaining_burst - time_quantum }
            ∧ (BurstInv p → BurstInv p1))
      ∧ (∀ s, runCmds init cmds = some s →
          ∀ p ∈ s.q1 ++ s.q2 ++ s.q3, 0 ≤ p.burst → BurstInv p) := by
  refine ⟨?_, ?_, ?_, ?_⟩
  · simp [BurstInv]
  · intro out hout p hp
    exact sort_by_arrival_mem queue out hout p hp
  · intro hq p1 hp1
    rw [schedule_eq_sweep] at hp1
    obtain ⟨p, hp, hgt, rfl⟩ := sweep_mem time_quantum queue clock p1 hp1
    exact ⟨p, hp, rfl, fun h => burstInv_pass p time_quantum hq h hgt⟩
  · intro s hs
    refine queued_runCmds (fun p => 0 ≤ p.burst → BurstInv p) ?_ cmds init s (by simp [init])
      ?_ hs
    · intro p time_quantum hq h hgt hb
      exact burstInv_pass p time_quantum hq (h hb) hgt
    · intro c _ pid priority arrival_time burst _ hb
      exact ⟨hb, le_refl _⟩

/-- Witness of C12, amended: pid 1 (priority 100, arrival 0, burst 5) and pid 2
(priority 10, arrival 0, burst `-5`) are added and the scheduler runs.  Pid 1 is
left with `remaining_burst = 2`, between 0 and 5, although pid 2 was added with
a negative burst. -/
theorem burst_invariant_witness :
    BurstInv ⟨1, 100, 0, 5, 5⟩
      ∧ runCmds init [Cmd.add 1 100 0 5, Cmd.add 2 10 0 (-5), Cmd.run]
          = some ⟨[⟨1, 100, 0, 5, 2⟩], [], [], [⟨2, 0, -5, -2⟩], -2⟩
      ∧ (∀ p ∈ ([⟨1, 100, 0, 5, 2⟩] : List Process) ++ [] ++ [], 0 ≤ p.burst → BurstInv p) :=
  ⟨(burst_invariant 1 100 0 5 [] 3 0 [] []).1.mpr (by decide), by decide,
    (burst_invariant 1 100 0 5 [] 3 0 []
      [Cmd.add 1 100 0 5, Cmd.add 2 10 0 (-5), Cmd.run]).2.2.2
      ⟨[⟨1, 100, 0, 5, 2⟩], [], [], [⟨2, 0, -5, -2⟩], -2⟩ (by decide)⟩

/-- C12 as stated fails at admission: pid 1 with burst `-5` is added as it is,
with `remaining_burst = -5 < 0`. -/
theorem burst_invariant_counterexample :
    add_process init 1 100 0 (-5) = ⟨[⟨1, 100, 0, -5, -5⟩], [], [], [], 0⟩
      ∧ ¬ BurstInv ⟨1, 100, 0, -5, -5⟩
      ∧ ¬ (∀ (pid priority arrival_time burst : Int),
            ∀ p ∈ (add_process init pid priority arrival_time burst).q1
                ++ (add_process init pid priority arrival_time burst).q2
                ++ (add_process init pid priority arrival_time burst).q3, BurstInv p) := by
  refine ⟨by decide, by decide, ?_⟩
  intro h
  exact absurd (h 1 100 0 (-5) ⟨1, 100, 0, -5, -5⟩ (by decide)) (by decide)

/-- C13, amended: from every state, `reset` leaves the three queues and the
ledger empty and does not assign the clock, which keeps its value; the next
scheduler run sets the clock to 0, so a run right after `reset` gives the
initial state. -/
theorem reset_clears_queues_and_ledger (s : State) :
    reset s = ⟨[], [], [], [], s.global_clock⟩
      ∧ run_scheduler (reset s) = some init := by
  constructor
  · rfl
  · rfl

/-- C13 as stated fails: pid 1 (priority 100, arrival 0, burst 2) is added, the
scheduler runs and the state is reset.  The clock is still 2, so the state is
not the initial state. -/
theorem reset_counterexample :
    runCmds init [Cmd.add 1 100 0 2, Cmd.run, Cmd.reset] = some ⟨[], [], [], [], 2⟩
      ∧ ¬ (∀ s : State, reset s = init) := by
  refine ⟨by decide, ?_⟩
  intro h
  exact absurd (h ⟨[], [], [], [], 2⟩) (by decide)

theorem sweep_results_sorted (time_quantum : Int) (hq : 0 ≤ time_quantum) :
    ∀ (queue : List Process) (clock : Int), (∀ p ∈ queue, 0 ≤ p.remaining_burst) →
      NoOverflow time_quantum queue clock →
      (∀ r ∈ (sweep time_quantum queue clock).2.2,
          clock ≤ r.completion ∧ r.completion ≤ (sweep time_quantum queue clock).2.1)
        ∧ CompletionSorted (sweep time_quantum queue clock).2.2 := by
  intro queue
  induction queue with
  | nil => intro clock _ _; simp [sweep, CompletionSorted]
  | cons p rest ih =>
    intro clock h hno
    obtain ⟨hin, hnrest⟩ := (noOverflow_cons time_quantum p rest clock).mp hno
    have h1 := slice_nonneg time_quantum p hq (h p (by simp))
    have hrest : ∀ q ∈ rest, 0 ≤ q.remaining_burst := fun q hq => h q (by simp [hq])
    obtain ⟨hb, hs⟩ := ih _ hrest hnrest
    have hc := sweep_clock_le time_quantum hq rest _ hrest hnrest
    have h3 : clock ≤ startClock p clock := by
      rw [startClock_eq_max]
      exact le_max_left _ _
    have hw := wrap32_of_inRange _ hin
    simp only [sweep]
    rw [hw] at hb hs hc ⊢
    split
    · refine ⟨?_, ?_⟩
      · intro r hr
        rcases List.mem_cons.mp hr with rfl | hr
        · exact ⟨by show clock ≤ startClock p clock + slice time_quantum p; omega, hc⟩
        · have := hb r hr
          exact ⟨by omega, this.2⟩
      · exact List.pairwise_cons.mpr ⟨fun r hr => (hb r hr).1, hs⟩
    · refine ⟨?_, hs⟩
      intro r hr
      have := hb r hr
      exact ⟨by omega, this.2⟩

theorem completionSorted_append (xs ys : List Result) (c : Int) (hx : CompletionSorted xs)
    (hy : CompletionSorted ys) (hxc : ∀ r ∈ xs, r.completion ≤ c)
    (hyc : ∀ r ∈ ys, c ≤ r.completion) : CompletionSorted (xs ++ ys) :=
  List.pairwise_append.mpr ⟨hx, hy, fun a ha b hb => le_trans (hxc a ha) (hyc b hb)⟩

theorem threePasses_sorted (o1 o2 o3 : List Process) (results : List Result)
    (h1 : ∀ p ∈ o1, 0 ≤ p.remaining_burst) (h2 : ∀ p ∈ o2, 0 ≤ p.remaining_burst)
    (h3 : ∀ p ∈ o3, 0 ≤ p.remaining_burst) :
    ∃ new, (threePasses o1 o2 o3 results).results = results ++ new
      ∧ (RunInRange o1 o2 o3 → CompletionSorted new ∧ ∀ r ∈ new, 0 ≤ r.completion) := by
  refine ⟨_, threePasses_results o1 o2 o3 results, ?_⟩
  intro hrun
  simp only [RunInRange, schedule_eq_sweep] at hrun
  obtain ⟨n1, n2, n3⟩ := hrun
  obtain ⟨b1, s1⟩ := sweep_results_sorted TIME_Q1 (by decide) o1 0 h1 n1
  obtain ⟨b2, s2⟩ := sweep_results_sorted TIME_Q2 (by decide) o2
    (sweep TIME_Q1 o1 0).2.1 h2 n2
  obtain ⟨b3, s3⟩ := sweep_results_sorted TIME_Q3 (by decide) o3
    (sweep TIME_Q2 o2 (sweep TIME_Q1 o1 0).2.1).2.1 h3 n3
  have c1 := sweep_clock_le TIME_Q1 (by decide) o1 0 h1 n1
  have c2 := sweep_clock_le TIME_Q2 (by decide) o2 (sweep TIME_Q1 o1 0).2.1 h2 n2
  refine ⟨?_, ?_⟩
  · refine completionSorted_append _ _ (sweep TIME_Q1 o1 0).2.1 s1 ?_ (fun r hr => (b1 r hr).2) ?_
    · exact completionSorted_append _ _ (sweep TIME_Q2 o2 (sweep TIME_Q1 o1 0).2.1).2.1 s2 s3
        (fun r hr => (b2 r hr).2) (fun r hr => (b3 r hr).1)
    · intro r hr
      rcases List.mem_append.mp hr with hr | hr
      · exact (b2 r hr).1
      · exact le_trans c2 (b3 r hr).1
  · intro r hr
    rcases List.mem_append.mp hr with hr | hr
    · exact (b1 r hr).1
    · rcases List.mem_append.mp hr with hr | hr
      · exact le_trans c1 (b2 r hr).1
      · exact le_trans (le_trans c1 c2) (b3 r hr).1

/-- C15, amended: in every state reached from the initial state by choices that
add no process with a negative burst, one scheduler run succeeds and appends
results to the ledger; when no addition to the clock overflows in the run, the
completion times of the results appended are non-negative and do not decrease
in append order.  The order holds inside one run; the ledger as a whole need
not be ordered, since every run starts the clock at 0 again. -/
theorem ledger_order_within_run (cmds : List Cmd) (s : State)
    (hnn : NonNegBursts cmds) (hreach : runCmds init cmds = some s) :
    ∃ o1 o2 o3 s1 new,
      sort_by_arrival s.q1 = some o1 ∧ sort_by_arrival s.q2 = some o2
        ∧ sort_by_arrival s.q3 = some o3
        ∧ run_scheduler s = some s1 ∧ s1.results = s.results ++ new
        ∧ (RunInRange o1 o2 o3 → CompletionSorted new ∧ ∀ r ∈ new, 0 ≤ r.completion) := by
  have hinv := burstInv_runCmds cmds s hnn hreach
  have hs : ∀ q : List Process, (∀ p ∈ q, p ∈ s.q1 ++ s.q2 ++ s.q3) →
      ∀ p ∈ bubbleSort q.length q.length q, 0 ≤ p.remaining_burst :=
    fun q hq p hp => (hinv p (hq p ((bubbleSort_perm _ _ _).subset hp))).1
  obtain ⟨new, h1, h2⟩ := threePasses_sorted _ _ _ s.results
    (hs s.q1 (fun p hp => by simp [hp])) (hs s.q2 (fun p hp => by simp [hp]))
    (hs s.q3 (fun p hp => by simp [hp]))
  exact ⟨_, _, _, _, new, sort_by_arrival_eq s.q1, sort_by_arrival_eq s.q2,
    sort_by_arrival_eq s.q3, run_scheduler_eq s, h1, h2⟩

/-- Witness of C15, amended: pid 1 (priority 100, arrival 0, burst 2) and pid 2
(priority 60, arrival 1, burst 1) are added; the run appends completion times 2
and 3, and no addition overflows. -/
theorem ledger_order_within_run_witness :
    run_scheduler ⟨[⟨1, 100, 0, 2, 2⟩], [⟨2, 60, 1, 1, 1⟩], [], [], 0⟩
        = some ⟨[], [], [], [⟨1, 0, 2, 2⟩, ⟨2, 1, 1, 3⟩], 3⟩
      ∧ RunInRange [⟨1, 100, 0, 2, 2⟩] [⟨2, 60, 1, 1, 1⟩] []
      ∧ CompletionSorted [⟨1, 0, 2, 2⟩, ⟨2, 1, 1, 3⟩]
      ∧ ∃ o1 o2 o3 s1 new,
          sort_by_arrival (⟨[⟨1, 100, 0, 2, 2⟩], [⟨2, 60, 1, 1, 1⟩], [], [], 0⟩ : State).q1
              = some o1
            ∧ sort_by_arrival
                (⟨[⟨1, 100, 0, 2, 2⟩], [⟨2, 60, 1, 1, 1⟩], [], [], 0⟩ : State).q2 = some o2
            ∧ sort_by_arrival
                (⟨[⟨1, 100, 0, 2, 2⟩], [⟨2, 60, 1, 1, 1⟩], [], [], 0⟩ : State).q3 = some o3
            ∧ run_scheduler ⟨[⟨1, 100, 0, 2, 2⟩], [⟨2, 60, 1, 1, 1⟩], [], [], 0⟩ = some s1
            ∧ s1.results
                = (⟨[⟨1, 100, 0, 2, 2⟩], [⟨2, 60, 1, 1, 1⟩], [], [], 0⟩ : State).results ++ new
            ∧ (RunInRange o1 o2 o3 → CompletionSorted new ∧ ∀ r ∈ new, 0 ≤ r.completion) :=
  ⟨by decide, by decide, by decide,
    ledger_order_within_run [Cmd.add 1 100 0 2, Cmd.add 2 60 1 1]
      ⟨[⟨1, 100, 0, 2, 2⟩], [⟨2, 60, 1, 1, 1⟩], [], [], 0⟩ (by decide) (by decide)⟩

/-- C15 as stated fails: pid 1 (priority 100, arrival 0, burst 3) is added and
the scheduler runs, recording completion 3; then pid 2 (priority 100, arrival 0,
burst 1) is added and the scheduler runs again from clock 0, recording
completion 1 after it. -/
theorem ledger_order_counterexample :
    runCmds init [Cmd.add 1 100 0 3, Cmd.run, Cmd.add 2 100 0 1, Cmd.run]
        = some ⟨[], [], [], [⟨1, 0, 3, 3⟩, ⟨2, 0, 1, 1⟩], 1⟩
      ∧ ¬ CompletionSorted [⟨1, 0, 3, 3⟩, ⟨2, 0, 1, 1⟩]
      ∧ ¬ (∀ (cmds : List Cmd) (s : State), runCmds init cmds = some s →
            CompletionSorted s.results) := by
  refine ⟨by decide, by decide, ?_⟩
  intro h
  exact absurd (h [Cmd.add 1 100 0 3, Cmd.run, Cmd.add 2 100 0 1, Cmd.run]
    ⟨[], [], [], [⟨1, 0, 3, 3⟩, ⟨2, 0, 1, 1⟩], 1⟩ (by decide)) (by decide)

theorem schedule_priority (queue : List Process) (time_quantum clock : Int)
    (results : List Result) (P : Int → Prop) (h : ∀ p ∈ queue, P p.priority) :
    ∀ p ∈ (schedule queue time_quantum clock results).queue, P p.priority := by
  intro p1 hp1
  rw [schedule_eq_sweep] at hp1
  obtain ⟨p, hp, _, rfl⟩ := sweep_mem time_quantum queue clock p1 hp1
  exact h p hp

theorem tierInv_step (s s1 : State) (c : Cmd) (hinv : TierInv s)
    (hs : step s c = some s1) : TierInv s1 := by
  obtain ⟨h1, h2, h3⟩ := hinv
  cases c with
  | add pid priority arrival_time burst =>
    simp only [step, Option.some.injEq] at hs
    subst hs
    unfold add_process
    simp only [enqueue_process_eq]
    by_cases p1 : priority ≥ 100
    · simp only [p1, if_true]
      refine ⟨?_, h2, h3⟩
      intro p hp
      rcases List.mem_append.mp hp with hp | hp
      · exact h1 p hp
      · simp only [List.mem_singleton] at hp
        subst hp
        exact p1
    · by_cases p2 : priority ≥ 50
      · simp only [p1, p2, if_true, if_false]
        refine ⟨h1, ?_, h3⟩
        intro p hp
        rcases List.mem_append.mp hp with hp | hp
        · exact h2 p hp
        · simp only [List.mem_singleton] at hp
          subst hp
          exact ⟨p2, by show priority ≤ 99; omega⟩
      · simp only [p1, p2, if_false]
        refine ⟨h1, h2, ?_⟩
        intro p hp
        rcases List.mem_append.mp hp with hp | hp
        · exact h3 p hp
        · simp only [List.mem_singleton] at hp
          subst hp
          show priority < 50
          omega
  | run =>
    rw [step, run_scheduler_eq, Option.some.injEq] at hs
    subst hs
    refine ⟨?_, ?_, ?_⟩
    · exact schedule_priority _ _ _ _ (fun x => x ≥ 100)
        (fun p hp => h1 p ((bubbleSort_perm _ _ _).subset hp))
    · exact schedule_priority _ _ _ _ (fun x => 50 ≤ x ∧ x ≤ 99)
        (fun p hp => h2 p ((bubbleSort_perm _ _ _).subset hp))
    · exact schedule_priority _ _ _ _ (fun x => x < 50)
        (fun p hp => h3 p ((bubbleSort_perm _ _ _).subset hp))
  | reset =>
    simp only [step, Option.some.injEq] at hs
    subst hs
    exact ⟨by simp [reset], by simp [reset], by simp [reset]⟩

theorem tierInv_runCmds : ∀ (cmds : List Cmd) (s s1 : State), TierInv s →
    runCmds s cmds = some s1 → TierInv s1 := by
  intro cmds
  induction cmds with
  | nil =>
    intro s s1 hinv hs
    simp only [runCmds, Option.some.injEq] at hs
    subst hs
    exact hinv
  | cons c rest ih =>
    intro s s1 hinv hs
    simp only [runCmds] at hs
    cases hstep : step s c with
    | none => simp [hstep] at hs
    | some s2 =>
      simp only [hstep] at hs
      exact ih s2 s1 (tierInv_step s s2 c hinv hstep) hs

/-- C17: in every state reached from the initial state by adding processes,
running the scheduler and resetting, every process of the first queue has
`priority ≥ 100`, every process of the second has `50 ≤ priority ≤ 99`, and every
process of the third has `priority < 50`. -/
theorem tier_membership_invariant (cmds : List Cmd) (s : State)
    (hreach : runCmds init cmds = some s) :
    (∀ p ∈ s.q1, p.priority ≥ 100)
      ∧ (∀ p ∈ s.q2, 50 ≤ p.priority ∧ p.priority ≤ 99)
      ∧ (∀ p ∈ s.q3, p.priority < 50) :=
  tierInv_runCmds cmds init s ⟨by simp [init], by simp [init], by simp [init]⟩ hreach

/-- Witness of C17: processes with priorities 120, 70 and 10, each with burst 5
and with arrivals 2, 1, 0, are added and the scheduler runs; each is still in
the queue of its band. -/
theorem tier_membership_invariant_witness :
    (∀ p ∈ ([⟨1, 120, 2, 5, 2⟩] : List Process), p.priority ≥ 100)
      ∧ (∀ p ∈ ([⟨2, 70, 1, 5, 3⟩] : List Process), 50 ≤ p.priority ∧ p.priority ≤ 99)
      ∧ (∀ p ∈ ([⟨3, 10, 0, 5, 4⟩] : List Process), p.priority < 50) :=
  tier_membership_invariant [Cmd.add 1 120 2 5, Cmd.add 2 70 1 5, Cmd.add 3 10 0 5, Cmd.run]
    ⟨[⟨1, 120, 2, 5, 2⟩], [⟨2, 70, 1, 5, 3⟩], [⟨3, 10, 0, 5, 4⟩], [], 8⟩ (by decide)

/-! ## Termination of the sort: lemmas and claim -/

theorem sortInnerLog_erase (lptr : Nat) (fuel : Nat) :
    ∀ (ptr : Nat) (queue : List Process) (swapped : Bool) (log : List Nat),
      (sortInnerLog lptr fuel ptr queue swapped log).map (fun r => (r.1, r.2.1, r.2.2.1))
        = sortInner lptr fuel ptr queue swapped := by
  induction fuel with
  | zero => intro ptr queue swapped log; simp [sortInnerLog, sortInner]
  | succ fuel ih =>
    intro ptr queue swapped log
    simp only [sortInnerLog, sortInner]
    split
    · split
      · split
        · exact ih _ _ _ _
        · exact ih _ _ _ _
      · rfl
    · rfl

theorem sortInnerLog_log (lptr : Nat) (fuel : Nat) :
    ∀ (ptr : Nat) (queue : List Process) (swapped : Bool) (log : List Nat)
      (r : List Process × Bool × Nat × List Nat),
      sortInnerLog lptr fuel ptr queue swapped log = some r →
        ptr ≤ r.2.2.1 ∧ r.2.2.2 = log ++ List.range' ptr (r.2.2.1 - ptr) := by
  induction fuel with
  | zero => intro ptr queue swapped log r h; simp [sortInnerLog] at h
  | succ fuel ih =>
    intro ptr queue swapped log r h
    simp only [sortInnerLog] at h
    split at h
    · split at h
      · have key : ∀ (q : List Process) (sw : Bool),
            sortInnerLog lptr fuel (ptr + 1) q sw (log ++ [ptr]) = some r →
            ptr ≤ r.2.2.1 ∧ r.2.2.2 = log ++ List.range' ptr (r.2.2.1 - ptr) := by
          intro q sw hq
          obtain ⟨h1, h2⟩ := ih _ _ _ _ r hq
          refine ⟨by omega, ?_⟩
          rw [h2]
          have e : r.2.2.1 - ptr = (r.2.2.1 - (ptr + 1)) + 1 := by omega
          rw [e, List.range'_succ]
          simp
        split at h
        · exact key _ _ h
        · exact key _ _ h
      · simp at h
    · simp only [Option.some.injEq] at h
      subst h
      simp

theorem sortInnerLog_eq (lptr : Nat) (queue : List Process) (h1 : 1 ≤ lptr)
    (h2 : lptr ≤ queue.length) :
    sortInnerLog lptr queue.length 0 queue false []
      = some ((bubblePass (lptr - 1) queue).1, (bubblePass (lptr - 1) queue).2, lptr - 1,
          List.range (lptr - 1)) := by
  have hin := sortInner_eq lptr queue.length [] queue false (by simpa using h1)
    (by simpa using h2) (by simp; omega)
  simp only [List.length_nil, List.nil_append, Nat.sub_zero, Bool.false_or] at hin
  have her := sortInnerLog_erase lptr queue.length 0 queue false []
  rw [hin] at her
  cases hr : sortInnerLog lptr queue.length 0 queue false [] with
  | none => simp [hr] at her
  | some r =>
    obtain ⟨_, hlog⟩ := sortInnerLog_log lptr queue.length 0 queue false [] r hr
    simp only [hr, Option.map_some', Option.some.injEq, Prod.mk.injEq] at her
    obtain ⟨e1, e2, e3⟩ := her
    obtain ⟨a, b, c, d⟩ := r
    simp only at e1 e2 e3 hlog
    subst e1 e2 e3
    subst hlog
    simp [List.range_eq_range']

theorem sortOuterLog_eq (fuel : Nat) :
    ∀ (lptr : Nat) (queue : List Process) (passes : List (List Nat)),
      1 ≤ lptr → lptr ≤ queue.length → lptr ≤ fuel →
      ∃ k, 1 ≤ k ∧ k ≤ lptr ∧ sortOuterLog fuel lptr queue passes
        = some (bubbleSort fuel lptr queue,
            passes ++ (List.range k).map (fun j => List.range (lptr - 1 - j))) := by
  induction fuel with
  | zero => intro lptr queue passes h1 h2 h3; omega
  | succ fuel ih =>
    intro lptr queue passes h1 h2 h3
    simp only [sortOuterLog, sortInnerLog_eq lptr queue h1 h2, bubbleSort]
    split
    · rename_i hsw
      have hl1 : 1 ≤ lptr - 1 := by
        by_contra hcon
        have : lptr - 1 = 0 := by omega
        rw [this] at hsw
        simp [bubblePass] at hsw
      obtain ⟨k, hk1, hk2, e⟩ := ih (lptr - 1) (bubblePass (lptr - 1) queue).1
        (passes ++ [List.range (lptr - 1)]) hl1 (by rw [bubblePass_length]; omega) (by omega)
      refine ⟨k + 1, by omega, by omega, ?_⟩
      rw [e, List.range_succ_eq_map]
      simp only [List.map_cons, List.map_map, Function.comp_def, Nat.sub_zero,
        List.append_assoc, List.singleton_append, Option.some.injEq, Prod.mk.injEq,
        List.append_cancel_left_eq, List.cons.injEq, true_and]
      refine List.map_congr_left (fun a _ => ?_)
      have : lptr - 1 - 1 - a = lptr - 1 - (a + 1) := by omega
      rw [this]
    · exact ⟨1, le_refl _, h1, by simp [List.range_succ]⟩

/-- C18: `sort_by_arrival` terminates on every queue without reading past the
last node.  On a queue of `n` nodes it makes `k ≤ n` passes; pass number `j`
(counted from 0) compares exactly the neighbours at positions `i` and `i + 1` for
`i = 0, ..., n - 2 - j`, all inside the first `n - j` nodes, so the part still
bubbled shrinks by one node per pass; an empty or one-node queue is returned as
it is without any pass. -/
theorem sort_by_arrival_terminates (queue : List Process) :
    ∃ out k, sort_by_arrival queue = some out
      ∧ sortLog queue
          = some (out, (List.range k).map (fun j => List.range (queue.length - 1 - j)))
      ∧ k ≤ queue.length
      ∧ (queue.length ≤ 1 → out = queue ∧ k = 0) := by
  match queue with
  | [] => exact ⟨[], 0, by simp [sort_by_arrival], by simp [sortLog], by simp, by simp⟩
  | [p] => exact ⟨[p], 0, by simp [sort_by_arrival], by simp [sortLog], by simp, by simp⟩
  | p :: p2 :: rest =>
    obtain ⟨k, _, hk, e⟩ := sortOuterLog_eq (p :: p2 :: rest).length (p :: p2 :: rest).length
      (p :: p2 :: rest) [] (by simp) (le_refl _) (le_refl _)
    refine ⟨_, k, sort_by_arrival_eq _, ?_, hk, ?_⟩
    · simp only [sortLog]
      rw [e]
      simp
    · intro h
      simp at h

/-- Witness of C18: a queue of three nodes with arrivals 5, 3, 4 is sorted in
two passes, the first comparing at positions 0 and 1, the second at position 0;
a one-node queue is returned with no pass. -/
theorem sort_by_arrival_terminates_witness :
    sortLog [⟨1, 0, 5, 1, 1⟩, ⟨2, 0, 3, 1, 1⟩, ⟨3, 0, 4, 1, 1⟩]
        = some ([⟨2, 0, 3, 1, 1⟩, ⟨3, 0, 4, 1, 1⟩, ⟨1, 0, 5, 1, 1⟩], [[0, 1], [0]])
      ∧ sortLog [⟨1, 0, 5, 1, 1⟩] = some ([⟨1, 0, 5, 1, 1⟩], [])
      ∧ ∃ out k, sort_by_arrival [⟨1, 0, 5, 1, 1⟩] = some out
          ∧ sortLog [⟨1, 0, 5, 1, 1⟩]
              = some (out, (List.range k).map
                  (fun j => List.range (([⟨1, 0, 5, 1, 1⟩] : List Process).length - 1 - j)))
          ∧ k ≤ ([⟨1, 0, 5, 1, 1⟩] : List Process).length
          ∧ (([⟨1, 0, 5, 1, 1⟩] : List Process).length ≤ 1
              → out = [⟨1, 0, 5, 1, 1⟩] ∧ k = 0) :=
  ⟨by decide, by decide, sort_by_arrival_terminates [⟨1, 0, 5, 1, 1⟩]⟩

/-! ## Repeated passes: lemmas and claim -/

theorem passNumber_le_iff (r time_quantum : Int) (k : Nat) (hq : 1 ≤ time_quantum) :
    passNumber r time_quantum ≤ k ↔ r ≤ k * time_quantum := by
  unfold passNumber
  have hpos : 0 < time_quantum := by omega
  constructor
  · intro h
    have h1 : (r + time_quantum - 1) / time_quantum < (k : Int) + 1 := by omega
    have h2 := (Int.ediv_lt_iff_lt_mul hpos).mp h1
    have h3 : ((k : Int) + 1) * time_quantum = k * time_quantum + time_quantum := by ring
    omega
  · intro h
    have h1 : r + time_quantum - 1 < ((k : Int) + 1) * time_quantum := by
      have h3 : ((k : Int) + 1) * time_quantum = k * time_quantum + time_quantum := by ring
      omega
    have h2 := (Int.ediv_lt_iff_lt_mul hpos).mpr h1
    omega

theorem filter_kept_twice (time_quantum m : Int) (hm : 0 ≤ m) :
    ∀ queue : List Process,
      ((((queue.filter (fun p => decide (p.remaining_burst > time_quantum))).map
          (fun p => { p with remaining_burst := p.remaining_burst - time_quantum })).filter
          (fun p => decide (p.remaining_burst > m))).map
          (fun p => { p with remaining_burst := p.remaining_burst - m }))
        = (queue.filter (fun p => decide (p.remaining_burst > m + time_quantum))).map
            (fun p => { p with remaining_burst := p.remaining_burst - (m + time_quantum) }) := by
  intro queue
  induction queue with
  | nil => simp
  | cons p rest ih =>
    by_cases h1 : p.remaining_burst > time_quantum
    · by_cases h2 : p.remaining_burst - time_quantum > m
      · have h3 : p.remaining_burst > m + time_quantum := by omega
        have h4 : p.remaining_burst - time_quantum - m
            = p.remaining_burst - (m + time_quantum) := by omega
        simp only [List.filter_cons, h1, h2, h3, decide_True, if_true, List.map_cons, ih, h4]
      · have h3 : ¬ p.remaining_burst > m + time_quantum := by omega
        simp only [List.filter_cons, h1, h2, h3, decide_True, decide_False, if_true,
          List.map_cons, Bool.false_eq_true, if_false]
        exact ih
    · have h3 : ¬ p.remaining_burst > m + time_quantum := by omega
      simp only [List.filter_cons, h1, h3, decide_False, Bool.false_eq_true, if_false]
      exact ih

theorem filter_done_twice (time_quantum m : Int) (hm : 0 ≤ m) :
    ∀ queue : List Process,
      ((queue.filter (fun p => decide (p.remaining_burst ≤ time_quantum))).map processKey
        ++ ((((queue.filter (fun p => decide (p.remaining_burst > time_quantum))).map
            (fun p => { p with remaining_burst := p.remaining_burst - time_quantum })).filter
            (fun p => decide (p.remaining_burst ≤ m))).map processKey)).Perm
        ((queue.filter (fun p => decide (p.remaining_burst ≤ m + time_quantum))).map
          processKey) := by
  intro queue
  induction queue with
  | nil => simp
  | cons p rest ih =>
    by_cases h1 : p.remaining_burst ≤ time_quantum
    · have h2 : ¬ p.remaining_burst > time_quantum := by omega
      have h3 : p.remaining_burst ≤ m + time_quantum := by omega
      simp only [List.filter_cons, h1, h2, h3, decide_True, decide_False, if_true,
        List.map_cons, List.cons_append, Bool.false_eq_true, if_false]
      exact List.Perm.cons _ ih
    · have h2 : p.remaining_burst > time_quantum := by omega
      by_cases h4 : p.remaining_burst - time_quantum ≤ m
      · have h3 : p.remaining_burst ≤ m + time_quantum := by omega
        simp only [List.filter_cons, h1, h2, h3, h4, decide_True, decide_False, if_true,
          List.map_cons, Bool.false_eq_true, if_false]
        exact List.perm_middle.trans (List.Perm.cons _ ih)
      · have h3 : ¬ p.remaining_burst ≤ m + time_quantum := by omega
        simp only [List.filter_cons, h1, h2, h3, h4, decide_True, decide_False, if_true,
          List.map_cons, Bool.false_eq_true, if_false]
        exact ih

theorem schedulePasses_spec (time_quantum : Int) (hq : 1 ≤ time_quantum) (k : Nat) :
    ∀ (queue : List Process) (clock : Int) (results : List Result),
      (∀ p ∈ queue, 1 ≤ p.remaining_burst) →
      (schedulePasses time_quantum k ⟨queue, clock, results⟩).queue
          = (queue.filter (fun p => decide (p.remaining_burst > (k : Int) * time_quantum))).map
              (fun p => { p with remaining_burst := p.remaining_burst - (k : Int) * time_quantum })
        ∧ ∃ new, (schedulePasses time_quantum k ⟨queue, clock, results⟩).results = results ++ new
            ∧ (new.map resultKey).Perm
                ((queue.filter
                  (fun p => decide (p.remaining_burst ≤ (k : Int) * time_quantum))).map
                  processKey) := by
  induction k with
  | zero =>
    intro queue clock results h
    have e1 : queue.filter (fun p => decide (p.remaining_burst > ((0 : Nat) : Int) * time_quantum))
        = queue := by
      rw [List.filter_eq_self]
      intro p hp
      have := h p hp
      simp only [Nat.cast_zero, zero_mul, gt_iff_lt, decide_eq_true_eq]
      omega
    have e2 : queue.filter (fun p => decide (p.remaining_burst ≤ ((0 : Nat) : Int) * time_quantum))
        = [] := by
      rw [List.filter_eq_nil_iff]
      intro p hp
      have := h p hp
      simp only [Nat.cast_zero, zero_mul, decide_eq_true_eq]
      omega
    refine ⟨?_, [], by simp [schedulePasses], by rw [e2]; simp⟩
    rw [e1]
    simp [schedulePasses]
  | succ k ih =>
    intro queue clock results h
    have hk : 0 ≤ (k : Int) * time_quantum := mul_nonneg (by omega) (by omega)
    have hk1 : ((k + 1 : Nat) : Int) * time_quantum = (k : Int) * time_quantum + time_quantum := by
      push_cast
      ring
    have hkept : ∀ p ∈ (sweep time_quantum queue clock).1, 1 ≤ p.remaining_burst := by
      intro p1 hp1
      obtain ⟨p, _, hgt, rfl⟩ := sweep_mem time_quantum queue clock p1 hp1
      show 1 ≤ p.remaining_burst - time_quantum
      omega
    obtain ⟨hqueue, new, hres, hperm⟩ := ih (sweep time_quantum queue clock).1
      (sweep time_quantum queue clock).2.1 (results ++ (sweep time_quantum queue clock).2.2) hkept
    simp only [schedulePasses, schedule_eq_sweep]
    refine ⟨?_, (sweep time_quantum queue clock).2.2 ++ new, ?_, ?_⟩
    · rw [hqueue, sweep_queue, hk1]
      exact filter_kept_twice time_quantum _ hk queue
    · rw [hres, List.append_assoc]
    · rw [List.map_append, sweep_result_keys]
      rw [sweep_queue] at hperm
      rw [hk1]
      exact (List.Perm.append_left _ hperm).trans
        (filter_done_twice time_quantum _ hk queue)

/-- C20: repeating the pass drains a queue.  For a quantum `≥ 1` and a queue
whose processes all have `remaining_burst ≥ 1`, after `k` consecutive `schedule`
passes the queue holds exactly the processes whose pass number
`ceil(remaining_burst / quantum)` is greater than `k`, in order and with
`remaining_burst` reduced by `k` quanta, and the ledger has gained exactly the
results (pid, arrival, burst) of the processes whose pass number is at most `k`:
a process is removed and recorded in the pass of its pass number and not
earlier.  Hence when `k` is at least every pass number the queue is empty and
the ledger has gained exactly one result per process.  `passNumber r q` is the
least number of quanta that cover `r`. -/
theorem repeated_passes_drain (queue : List Process) (time_quantum clock : Int)
    (results : List Result) (k : Nat) (hq : 1 ≤ time_quantum)
    (hrem : ∀ p ∈ queue, 1 ≤ p.remaining_burst) :
    (schedulePasses time_quantum k ⟨queue, clock, results⟩).queue
        = (queue.filter
            (fun p => decide ((k : Int) < passNumber p.remaining_burst time_quantum))).map
            (fun p => { p with remaining_burst := p.remaining_burst - (k : Int) * time_quantum })
      ∧ (∃ new, (schedulePasses time_quantum k ⟨queue, clock, results⟩).results = results ++ new
          ∧ (new.map resultKey).Perm
              ((queue.filter
                (fun p => decide (passNumber p.remaining_burst time_quantum ≤ (k : Int)))).map
                processKey))
      ∧ ((∀ p ∈ queue, passNumber p.remaining_burst time_quantum ≤ (k : Int)) →
          (schedulePasses time_quantum k ⟨queue, clock, results⟩).queue = []
            ∧ ∃ new, (schedulePasses time_quantum k ⟨queue, clock, results⟩).results
                  = results ++ new
                ∧ (new.map resultKey).Perm (queue.map processKey))
      ∧ (∀ (r : Int) (m : Nat),
          passNumber r time_quantum ≤ (m : Int) ↔ r ≤ (m : Int) * time_quantum) := by
  obtain ⟨hqueue, new, hres, hperm⟩ :=
    schedulePasses_spec time_quantum hq k queue clock results hrem
  have e1 : queue.filter (fun p => decide ((k : Int) < passNumber p.remaining_burst time_quantum))
      = queue.filter (fun p => decide (p.remaining_burst > (k : Int) * time_quantum)) := by
    apply List.filter_congr
    intro p _
    have := passNumber_le_iff p.remaining_burst time_quantum k hq
    by_cases h : p.remaining_burst ≤ (k : Int) * time_quantum
    · have h2 : ¬ (k : Int) < passNumber p.remaining_burst time_quantum := by
        have := this.mpr h
        omega
      have h3 : ¬ p.remaining_burst > (k : Int) * time_quantum := by omega
      simp [h2, h3]
    · have h2 : (k : Int) < passNumber p.remaining_burst time_quantum := by
        by_contra hc
        exact h (this.mp (by omega))
      have h3 : p.remaining_burst > (k : Int) * time_quantum := by omega
      simp only [h2, h3]
  have e2 : queue.filter (fun p => decide (passNumber p.remaining_burst time_quantum ≤ (k : Int)))
      = queue.filter (fun p => decide (p.remaining_burst ≤ (k : Int) * time_quantum)) := by
    apply List.filter_congr
    intro p _
    have := passNumber_le_iff p.remaining_burst time_quantum k hq
    simp only [this]
  refine ⟨by rw [e1]; exact hqueue, ⟨new, hres, by rw [e2]; exact hperm⟩, ?_,
    fun r m => passNumber_le_iff r time_quantum m hq⟩
  intro hall
  have e3 : queue.filter (fun p => decide (p.remaining_burst > (k : Int) * time_quantum)) = [] := by
    rw [List.filter_eq_nil_iff]
    intro p hp
    have := (passNumber_le_iff p.remaining_burst time_quantum k hq).mp (hall p hp)
    simp only [gt_iff_lt, decide_eq_true_eq]
    omega
  have e4 : queue.filter (fun p => decide (p.remaining_burst ≤ (k : Int) * time_quantum))
      = queue := by
    rw [List.filter_eq_self]
    intro p hp
    have := (passNumber_le_iff p.remaining_burst time_quantum k hq).mp (hall p hp)
    simpa using this
  refine ⟨by rw [hqueue, e3]; rfl, new, hres, ?_⟩
  rw [e4] at hperm
  exact hperm

/-- Witness of C20: pid 1 with burst 5 and pid 2 with burst 2 under quantum 2.
The pass numbers are 3 and 1; after one pass pid 2 is recorded and pid 1 stays
with `remaining_burst = 3`; after three passes the queue is empty and both are
recorded. -/
theorem repeated_passes_drain_witness :
    schedulePasses 2 1 ⟨[⟨1, 60, 0, 5, 5⟩, ⟨2, 60, 0, 2, 2⟩], 0, []⟩
        = ⟨[⟨1, 60, 0, 5, 3⟩], 4, [⟨2, 0, 2, 4⟩]⟩
      ∧ schedulePasses 2 3 ⟨[⟨1, 60, 0, 5, 5⟩, ⟨2, 60, 0, 2, 2⟩], 0, []⟩
        = ⟨[], 7, [⟨2, 0, 2, 4⟩, ⟨1, 0, 5, 7⟩]⟩
      ∧ passNumber 5 2 = 3 ∧ passNumber 2 2 = 1
      ∧ (schedulePasses 2 3 ⟨[⟨1, 60, 0, 5, 5⟩, ⟨2, 60, 0, 2, 2⟩], 0, []⟩).queue = [] :=
  ⟨by decide, by decide, by decide, by decide,
    ((repeated_passes_drain [⟨1, 60, 0, 5, 5⟩, ⟨2, 60, 0, 2, 2⟩] 2 0 [] 3 (by decide)
      (by decide)).2.2.1 (by decide)).1⟩

end ARTS
